import Mathlib

/-!
# The EPHE tile container reader (`src/eph-file.c`)

A shallow embedding of `eph_load` and of the static helpers it is built from
(`READ`, `chunk_read_start`, `chunk_read`, `CHUNK_READ`, `chunk_read_finish`),
followed by theorems about them.

Modelling conventions.

* The buffer `data` is a list of bytes; the moving pointer `data` of the C code
  is the pair of that list and an integer offset (`Cursor.data`), next to the
  counter `data_size` (`Cursor.data_size`).  The two are kept apart, as in the
  source: nothing in the definitions forces `data_size` to be the number of
  bytes left.
* `memcpy` is the only way bytes are read.  A read that leaves the buffer, or
  whose `size_t` length comes from a negative `int`, is the outcome
  `Error.MemoryFault`.
* A failed `CHECK` or `assert` ends the process; the model records which one
  failed as an `Error` and keeps the sink calls made so far.
* `int` is 32 bits wide, two's complement, wrapping (`toInt32`); the host is
  little-endian.
* `uncompress` (zlib) and the callback are parameters.
* `order = log2(nuniq / 4) / 2` is computed on doubles.  For `nuniq / 4 < 2 ^ 32`
  the result is the exact `⌊log2 (nuniq / 4)⌋ / 2`; beyond, where the rounding of
  the double `log2` can change the result, it is the value of a parameter
  `log2_half` about which nothing is assumed (`Log2Half`, `nuniq_order`).
* The `while` loop is run with a fuel counter; `eph_load` starts it with
  `data_size + 1`, which is more than the number of iterations the loop can make
  because every completed iteration consumes at least 12 bytes
  (`eph_load_fuel_enough`: no run ends for lack of fuel).
-/

namespace EphFile

/-! ## Machine integers and bytes -/

abbrev Byte := Fin 256

/-- Conversion of an integer to the 32-bit `int` of the C code (wrapping). -/
def toInt32 (x : Int) : Int := (x + 2 ^ 31) % 2 ^ 32 - 2 ^ 31

/-- Conversion of an integer to `unsigned long` / `uint64_t` (64 bits). -/
def toUInt64 (x : Int) : Nat := (x % 2 ^ 64).toNat

/-- Value of a little-endian byte string. -/
def le_nat : List Byte → Nat
  | [] => 0
  | b :: bs => b.val + 256 * le_nat bs

/-- What `memcpy(&v_, data, 4)` leaves in an `int32_t`. -/
def int32_of_bytes (bs : List Byte) : Int := toInt32 (le_nat bs)

/-- What `memcpy(&v_, data, 8)` leaves in a `uint64_t`. -/
def uint64_of_bytes (bs : List Byte) : Nat := le_nat bs % 2 ^ 64

/-- Reading `n` bytes at offset `off` of the buffer: `memcpy(dst, data, n)`.
`none` is an access outside the buffer. -/
def memcpy (buf : List Byte) (off n : Int) : Option (List Byte) :=
  if 0 ≤ off ∧ 0 ≤ n ∧ off + n ≤ buf.length then
    some ((buf.drop off.toNat).take n.toNat)
  else none

/-! ## Outcomes -/

/-- The ways a run of `eph_load` ends other than by `return 0`, one for each
kind of `CHECK` or `assert` in the source and one for a read outside the
buffer:
`Truncated` for the size checks (`CHECK(data_size >= 4)`, the `CHECK` of
`READ`, `CHECK(*data_size >= 8)`, `CHECK(*data_size >= size)`),
`BadMagic` for `CHECK(strncmp(data, "EPHE", 4) == 0)`,
`UnsupportedVersion` for `CHECK(version == FILE_VERSION)`,
`ChunkOverrun` for `assert(c->pos <= c->length)`,
`ChunkNotClosed` for `assert(c->pos == c->length)`. -/
inductive Error
  | Truncated
  | BadMagic
  | UnsupportedVersion
  | ChunkOverrun
  | ChunkNotClosed
  | MemoryFault
  deriving DecidableEq, Repr

/-- The arguments of one call of the callback (the `user` pointer apart). -/
structure SinkCall where
  type : List Byte
  version : Int
  order : Int
  pix : Int
  size : Int
  data : List Byte
  deriving DecidableEq, Repr

/-- How a run ends: `eph_load` returned `code`, the process was ended by a
failed `CHECK` or `assert` or by a memory fault, or the fuel of the model ran
out. -/
inductive Outcome
  | returned (code : Int)
  | aborted (e : Error)
  | outOfFuel
  deriving DecidableEq, Repr

/-- End state of a run of `eph_load`: how it ended, the state behind the `user`
pointer, and the calls of the callback in the order they were made. -/
structure Result (U : Type) where
  outcome : Outcome
  user : U
  calls : List SinkCall
  deriving DecidableEq

/-! ## zlib -/

/-- Effect of `uncompress(dest, &destLen, source, sourceLen)`: the returned
code (`Z_OK` is 0), the value left in `destLen`, the bytes left in `dest`. -/
structure UncompressResult where
  ret : Int
  destLen : Nat
  dest : List Byte

/-- The decompression service: from the capacity passed in `*destLen` and the
source bytes to its effect. -/
abbrev Uncompress := Nat → List Byte → UncompressResult

/-- The callback: from the call's arguments and the state behind `user` to the
returned `int` and the new state. -/
abbrev Callback (U : Type) := SinkCall → U → Int × U

/-! ## The chunk reader -/

def FILE_VERSION : Int := 2

/-- The fields of `chunk_t` that the reader uses. -/
structure chunk_t where
  type : List Byte
  length : Int
  pos : Int
  deriving DecidableEq, Repr

/-- The pair `(data, data_size)` that is threaded through the reader. -/
structure Cursor where
  data : Int
  data_size : Int
  deriving DecidableEq, Repr

/-- The macro `READ(data, size, int32_t)`.  Its `CHECK` compares the `int`
size with a `size_t`; `eph_load` rejects a `data_size` below 4 before the
first `READ` and the counter never gets negative afterwards, so the comparison
is taken on integers. -/
def READ_int32 (buf : List Byte) (cur : Cursor) : Except Error (Int × Cursor) :=
  if cur.data_size < 4 then .error .Truncated
  else
    match memcpy buf cur.data 4 with
    | none => .error .MemoryFault
    | some bs => .ok (int32_of_bytes bs, ⟨cur.data + 4, cur.data_size - 4⟩)

/-- The function `chunk_read_start`: `none` is the `false` it returns at the
end of the stream. -/
def chunk_read_start (buf : List Byte) (cur : Cursor) :
    Except Error (Option (chunk_t × Cursor)) :=
  if cur.data_size = 0 then .ok none
  else if cur.data_size < 8 then .error .Truncated
  else
    match memcpy buf cur.data 4 with
    | none => .error .MemoryFault
    | some ty =>
      match READ_int32 buf ⟨cur.data + 4, cur.data_size - 4⟩ with
      | .error e => .error e
      | .ok (len, cur1) => .ok (some (⟨ty, len, 0⟩, cur1))

/-- The function `chunk_read_finish`. -/
def chunk_read_finish (buf : List Byte) (c : chunk_t) (cur : Cursor) :
    Except Error Cursor :=
  if c.pos ≠ c.length then .error .ChunkNotClosed
  else
    match READ_int32 buf cur with
    | .error e => .error e
    | .ok (_, cur1) => .ok cur1

/-- The function `chunk_read`. -/
def chunk_read (buf : List Byte) (c : chunk_t) (cur : Cursor) (size : Int) :
    Except Error (List Byte × chunk_t × Cursor) :=
  let c1 : chunk_t := { c with pos := toInt32 (c.pos + size) }
  if c1.length < c1.pos then .error .ChunkOverrun
  else if cur.data_size < size then .error .Truncated
  else
    match memcpy buf cur.data size with
    | none => .error .MemoryFault
    | some bs => .ok (bs, c1, ⟨cur.data + size, cur.data_size - size⟩)

/-- The macro `CHUNK_READ(chunk, data, data_size, int32_t)`. -/
def CHUNK_READ_int32 (buf : List Byte) (c : chunk_t) (cur : Cursor) :
    Except Error (Int × chunk_t × Cursor) :=
  match chunk_read buf c cur 4 with
  | .error e => .error e
  | .ok (bs, c1, cur1) => .ok (int32_of_bytes bs, c1, cur1)

/-- The macro `CHUNK_READ(chunk, data, data_size, uint64_t)`. -/
def CHUNK_READ_uint64 (buf : List Byte) (c : chunk_t) (cur : Cursor) :
    Except Error (Nat × chunk_t × Cursor) :=
  match chunk_read buf c cur 8 with
  | .error e => .error e
  | .ok (bs, c1, cur1) => .ok (uint64_of_bytes bs, c1, cur1)

/-! ## The nuniq decomposition -/

/-- The floating-point side of `order = log2(nuniq / 4) / 2` for large
arguments: from the `uint64_t` quotient `x = nuniq / 4` to the `int` that the
double `log2(x) / 2` converts to.  It stands for the conversion of `x` to
`double` (which rounds from `2 ^ 53` on), the `log2` of the C library (which
rounds its result) and the truncation.  The model consults it only for
`x ≥ 2 ^ 32` and assumes nothing about it: on that range the rounding of `log2`
can reach the next integer (as at `x = 2 ^ 50 - 2`, where the nearest double to
`log2 x` is 50), so the value is not `⌊log2 x⌋ / 2` in general. -/
abbrev Log2Half := Nat → Int

/-- The statement `order = log2(nuniq / 4) / 2`.  The quotient `nuniq / 4` is
an integer division on `uint64_t`; the rest is computed on doubles and
truncated to `int`.

* For `nuniq < 4` the C expression converts `-inf` to `int`; the model takes
  `INT_MIN` there.
* For `nuniq / 4 < 2 ^ 32` the quotient is a double exactly, and the result is
  `⌊log2 (nuniq / 4)⌋ / 2`: `log2` of a power of two is exact, and below an even
  power `2 ^ (2 * k)` the logarithm of the largest integer stays
  `2 ^ (-32)` or more under `2 * k`, while the doubles there are `2 ^ (-48)`
  apart, so the rounding of `log2` cannot reach `2 * k`.
* From `2 ^ 32` on the result is the one of the floating-point library,
  `log2_half (nuniq / 4)`. -/
def nuniq_order (log2_half : Log2Half) (nuniq : Nat) : Int :=
  if nuniq / 4 = 0 then -2 ^ 31
  else if nuniq / 4 < 2 ^ 32 then ((Nat.log2 (nuniq / 4) / 2 : Nat) : Int)
  else log2_half (nuniq / 4)

/-- The expression `1 << s` on `int`, the shift count taken modulo 32. -/
def shl1 (s : Int) : Int := toInt32 (2 ^ (s % 32).toNat)

/-- The statement `pix = nuniq - 4 * (1 << (2 * order))`: the product is an
`int`, the difference a `uint64_t`, the result an `int`. -/
def nuniq_pix (nuniq : Nat) (order : Int) : Int :=
  toInt32 ((nuniq : Int) - toInt32 (4 * shl1 (toInt32 (2 * order))))

/-! ## The loader -/

/-- The test `c.type[0] >= 'A' && c.type[0] <= 'Z'`. -/
def is_tile_type (type : List Byte) : Bool :=
  match type with
  | [] => false
  | b :: _ => decide (65 ≤ b.val ∧ b.val ≤ 90)

/-- The values that lines 123 to 131 of `eph_load` read from a tile chunk:
`tile_version`, `nuniq`, `size` (an `unsigned long`), `comp_size` and the
`comp_size` bytes copied to `buf`. -/
structure TileFields where
  tile_version : Int
  nuniq : Nat
  size : Nat
  comp_size : Int
  buf : List Byte
  deriving DecidableEq, Repr

/-- Lines 123 to 131 of `eph_load`: the reads of the body of the `if`. -/
def read_tile (buf : List Byte) (c : chunk_t) (cur : Cursor) :
    Except Error (TileFields × chunk_t × Cursor) :=
  match CHUNK_READ_int32 buf c cur with
  | .error e => .error e
  | .ok (tile_version, c1, cur1) =>
  match CHUNK_READ_uint64 buf c1 cur1 with
  | .error e => .error e
  | .ok (nuniq, c2, cur2) =>
  match CHUNK_READ_int32 buf c2 cur2 with
  | .error e => .error e
  | .ok (size, c3, cur3) =>
  match CHUNK_READ_int32 buf c3 cur3 with
  | .error e => .error e
  | .ok (comp_size, c4, cur4) =>
  match chunk_read buf c4 cur4 comp_size with
  | .error e => .error e
  | .ok (comp, c5, cur5) =>
  .ok (⟨tile_version, nuniq, toUInt64 size, comp_size, comp⟩, c5, cur5)

/-- Lines 125, 126, 132 and 134 of `eph_load`: the arguments that the callback
gets for a tile.  The code of `uncompress` is not looked at; `size` and
`chunk_data` are passed on as it left them. -/
def tile_sink_call (log2_half : Log2Half)
    (uncompress : Uncompress) (type : List Byte) (f : TileFields) :
    SinkCall :=
  let order := nuniq_order log2_half f.nuniq
  let pix := nuniq_pix f.nuniq order
  let r := uncompress f.size f.buf
  ⟨type, f.tile_version, order, pix, toInt32 r.destLen, r.dest⟩

/-- The `while` loop of `eph_load`, with a fuel counter.  The value returned
by the callback is dropped, as in the source. -/
def eph_loop {U : Type} (log2_half : Log2Half) (uncompress : Uncompress) (callback : Callback U)
    (buf : List Byte) : Nat → Cursor → U → List SinkCall → Result U
  | 0, _, user, calls => ⟨.outOfFuel, user, calls⟩
  | fuel + 1, cur, user, calls =>
    match chunk_read_start buf cur with
    | .error e => ⟨.aborted e, user, calls⟩
    | .ok none => ⟨.returned 0, user, calls⟩
    | .ok (some (c, cur1)) =>
      if is_tile_type c.type then
        match read_tile buf c cur1 with
        | .error e => ⟨.aborted e, user, calls⟩
        | .ok (f, c2, cur2) =>
          let call := tile_sink_call log2_half uncompress c.type f
          let user2 := (callback call user).2
          match chunk_read_finish buf c2 cur2 with
          | .error e => ⟨.aborted e, user2, calls ++ [call]⟩
          | .ok cur3 => eph_loop log2_half uncompress callback buf fuel cur3 user2 (calls ++ [call])
      else
        match chunk_read_finish buf c cur1 with
        | .error e => ⟨.aborted e, user, calls⟩
        | .ok cur3 => eph_loop log2_half uncompress callback buf fuel cur3 user calls

/-- The magic string `"EPHE"`. -/
def EPHE : List Byte := [69, 80, 72, 69]

/-- The function `eph_load(data, data_size, user, callback)`. -/
def eph_load {U : Type} (log2_half : Log2Half)
    (uncompress : Uncompress) (data : List Byte) (data_size : Int)
    (user : U) (callback : Callback U) : Result U :=
  if data_size < 4 then ⟨.aborted .Truncated, user, []⟩
  else
    match memcpy data 0 4 with
    | none => ⟨.aborted .MemoryFault, user, []⟩
    | some magic =>
      if magic ≠ EPHE then ⟨.aborted .BadMagic, user, []⟩
      else
        match READ_int32 data ⟨4, data_size - 4⟩ with
        | .error e => ⟨.aborted e, user, []⟩
        | .ok (version, cur) =>
          if version ≠ FILE_VERSION then ⟨.aborted .UnsupportedVersion, user, []⟩
          else eph_loop log2_half uncompress callback data (cur.data_size.toNat + 1) cur user []

/-! ## The file layout

The layout of the format comment at the head of the source, from the writing
side: it is what the theorems feed to the reader. -/

/-- The `n` little-endian bytes of `x`. -/
def le_bytes : Nat → Nat → List Byte
  | 0, _ => []
  | n + 1, x => ⟨x % 256, Nat.mod_lt x (by decide)⟩ :: le_bytes n (x / 256)

/-- The 4 bytes of an `int32_t`. -/
def bytes_of_int32 (x : Int) : List Byte := le_bytes 4 (x % 2 ^ 32).toNat

/-- The 8 bytes of a `uint64_t`. -/
def bytes_of_uint64 (x : Nat) : List Byte := le_bytes 8 x

/-- The payload of a healpix tile chunk: version, nuniq, data size, compressed
data size (the length of `comp`), compressed data. -/
structure Tile where
  version : Int
  nuniq : Nat
  size : Int
  comp : List Byte
  deriving DecidableEq, Repr

/-- The bytes of a tile payload, field after field. -/
def Tile.bytes (t : Tile) : List Byte :=
  bytes_of_int32 t.version ++ bytes_of_uint64 t.nuniq ++ bytes_of_int32 t.size ++
    bytes_of_int32 t.comp.length ++ t.comp

/-- A chunk of a file: a healpix tile under a type that starts with an
uppercase letter, or any other chunk with its data. -/
inductive Chunk
  | tile (type : List Byte) (t : Tile) (crc : List Byte)
  | other (type : List Byte) (data : List Byte) (crc : List Byte)
  deriving DecidableEq, Repr

/-- The bytes of a chunk: type, data length, data, CRC. -/
def Chunk.bytes : Chunk → List Byte
  | .tile type t crc => type ++ bytes_of_int32 t.bytes.length ++ t.bytes ++ crc
  | .other type data crc => type ++ bytes_of_int32 data.length ++ data ++ crc

/-- The bytes of a list of chunks, in order. -/
def chunks_bytes : List Chunk → List Byte
  | [] => []
  | c :: cs => c.bytes ++ chunks_bytes cs

/-- The bytes of a file: magic string, file version, chunks. -/
def file_bytes (cs : List Chunk) : List Byte :=
  EPHE ++ bytes_of_int32 FILE_VERSION ++ chunks_bytes cs

/-- Well-formedness of a tile payload: every field fits its width. -/
def Tile.wf (t : Tile) : Prop :=
  -2 ^ 31 ≤ t.version ∧ t.version < 2 ^ 31 ∧ t.nuniq < 2 ^ 64 ∧
  -2 ^ 31 ≤ t.size ∧ t.size < 2 ^ 31 ∧ 20 + t.comp.length < 2 ^ 31

instance (t : Tile) : Decidable t.wf := by
  unfold Tile.wf; infer_instance

/-- Well-formedness of a chunk: a 4-byte type whose first character tells
tiles from other chunks, a 4-byte CRC, fields that fit their width. -/
def Chunk.wf : Chunk → Prop
  | .tile type t crc =>
      type.length = 4 ∧ is_tile_type type = true ∧ crc.length = 4 ∧ t.wf
  | .other type data crc =>
      type.length = 4 ∧ is_tile_type type = false ∧ crc.length = 4 ∧
        data.length < 2 ^ 31

instance (c : Chunk) : Decidable c.wf := by
  cases c <;> (unfold Chunk.wf; infer_instance)

/-- The chunks whose data `eph_load` reads in full: the tiles, and the other
chunks that declare no data. -/
def Chunk.fully_read : Chunk → Prop
  | .tile _ _ _ => True
  | .other _ data _ => data = []

instance (c : Chunk) : Decidable c.fully_read := by
  cases c <;> (unfold Chunk.fully_read; infer_instance)

/-- The call of the callback that a tile chunk stands for, given the
decompression service: its type, version, the order and pixel of its nuniq,
and what the service makes of its declared size and compressed bytes. -/
def tile_call (log2_half : Log2Half)
    (uncompress : Uncompress) (type : List Byte) (t : Tile) : SinkCall :=
  let r := uncompress (toUInt64 t.size) t.comp
  ⟨type, t.version, nuniq_order log2_half t.nuniq, nuniq_pix t.nuniq (nuniq_order log2_half t.nuniq),
    toInt32 r.destLen, r.dest⟩

/-- The calls that a list of chunks stands for: one per tile chunk, in order. -/
def chunks_calls (log2_half : Log2Half) (uncompress : Uncompress) : List Chunk → List SinkCall
  | [] => []
  | .tile type t _ :: cs => tile_call log2_half uncompress type t :: chunks_calls log2_half uncompress cs
  | .other _ _ _ :: cs => chunks_calls log2_half uncompress cs

/-! ## Auxiliary notions for the statements -/

/-- The buffer holds `tail` from offset `off` on. -/
def At (buf : List Byte) (off : Int) (tail : List Byte) : Prop :=
  0 ≤ off ∧ off ≤ buf.length ∧ buf.drop off.toNat = tail

/-- The state behind `user` after the callback has received `calls` in order. -/
def run_calls {U : Type} (callback : Callback U) (user : U) (calls : List SinkCall) : U :=
  calls.foldl (fun u call => (callback call u).2) user

/-- The cursor after one whole iteration of the loop of `eph_load` started at
`cur`, when the iteration gets through `chunk_read_finish`. -/
def chunk_next (buf : List Byte) (cur : Cursor) : Option Cursor :=
  match chunk_read_start buf cur with
  | .ok (some (c, cur1)) =>
    if is_tile_type c.type then
      match read_tile buf c cur1 with
      | .ok (_, c2, cur2) =>
        match chunk_read_finish buf c2 cur2 with
        | .ok cur3 => some cur3
        | .error _ => none
      | .error _ => none
    else
      match chunk_read_finish buf c cur1 with
      | .ok cur3 => some cur3
      | .error _ => none
  | _ => none

/-- The offsets at which the loop of `eph_load`, started at `cur`, starts a
chunk: `cur.data` and then the start of every chunk that follows a completed
one. -/
def chunk_starts (buf : List Byte) : Nat → Cursor → List Int
  | 0, _ => []
  | fuel + 1, cur =>
    cur.data ::
      match chunk_next buf cur with
      | some cur3 => chunk_starts buf fuel cur3
      | none => []

instance (buf : List Byte) (off : Int) (tail : List Byte) : Decidable (At buf off tail) := by
  unfold At; infer_instance

/-- The offsets at which `eph_load` starts a chunk of `buf`: 8, then the end of
every chunk that it gets through (the last one is the end of the buffer when
the decode succeeds). -/
def file_chunk_starts (buf : List Byte) : List Int :=
  chunk_starts buf (buf.length - 7) ⟨8, (buf.length : Int) - 8⟩

/-- The cursor at the same place of the buffer once the buffer is cut to its
first `k` bytes. -/
def Cursor.cut (k : Int) (cur : Cursor) : Cursor := ⟨cur.data, k - cur.data⟩

/-- One whole iteration of the loop of `eph_load` started at `cur`, when it
gets through `chunk_read_finish`: the chunk as `chunk_read_start` left it, the
fields read from it if it is a tile, and the cursor after the iteration. -/
def chunk_step (buf : List Byte) (cur : Cursor) :
    Option (chunk_t × Option TileFields × Cursor) :=
  match chunk_read_start buf cur with
  | .ok (some (c, cur1)) =>
    if is_tile_type c.type then
      match read_tile buf c cur1 with
      | .ok (f, c2, cur2) =>
        match chunk_read_finish buf c2 cur2 with
        | .ok cur3 => some (c, some f, cur3)
        | .error _ => none
      | .error _ => none
    else
      match chunk_read_finish buf c cur1 with
      | .ok cur3 => some (c, none, cur3)
      | .error _ => none
  | _ => none

/-- The chunks that the loop of `eph_load`, started at `cur`, gets through, in
order, each with the fields read from it if it is a tile. -/
def chunks_read (buf : List Byte) : Nat → Cursor → List (chunk_t × Option TileFields)
  | 0, _ => []
  | fuel + 1, cur =>
    match chunk_step buf cur with
    | some (c, f, cur3) => (c, f) :: chunks_read buf fuel cur3
    | none => []

/-- The chunks of `buf` that `eph_load` gets through. -/
def file_chunks_read (buf : List Byte) : List (chunk_t × Option TileFields) :=
  chunks_read buf (buf.length - 7) ⟨8, (buf.length : Int) - 8⟩

/-- The four offsets before each of the given offsets. -/
def crc_offsets_of : List Int → List Int
  | [] => []
  | e :: es => (e - 4) :: (e - 3) :: (e - 2) :: (e - 1) :: crc_offsets_of es

/-- The offsets of the CRC bytes that `eph_load` reads in `buf`: the four bytes
before the end of every chunk that it gets through. -/
def crc_offsets (buf : List Byte) : List Int :=
  crc_offsets_of (file_chunk_starts buf).tail

deriving instance DecidableEq for Except

/-- The two buffers hold the same bytes at the offsets from `lo` up to `hi`
(excluded). -/
def Agree (buf1 buf2 : List Byte) (lo hi : Int) : Prop :=
  ∀ i : Nat, lo ≤ (i : Int) → (i : Int) < hi → buf1[i]? = buf2[i]?

/-- What a chunk that the loop got through looks like: a tile declares 20 bytes
more than its compressed size, which is not negative; another chunk declares
no byte. -/
def chunk_closed (p : chunk_t × Option TileFields) : Prop :=
  (is_tile_type p.1.type = true →
      ∃ f, p.2 = some f ∧ 0 ≤ f.comp_size ∧ p.1.length = 20 + f.comp_size) ∧
    (is_tile_type p.1.type = false → p.2 = none ∧ p.1.length = 0)

/-! ## Sample data for the closed instances -/

/-- A floating-point library for the closed instances: one that rounds nothing.
The instances all have `nuniq / 4 < 2 ^ 32`, where `nuniq_order` does not
consult it. -/
def sample_log2_half : Log2Half := fun x => ((Nat.log2 x / 2 : Nat) : Int)

/-- A decompression service that stores: it returns `Z_OK` and hands back the
source bytes, leaving the size it was given. -/
def stored_uncompress : Uncompress := fun n src => ⟨0, n, src⟩

/-- A decompression service that always reports `Z_DATA_ERROR`. -/
def failing_uncompress : Uncompress := fun _ _ => ⟨-3, 0, []⟩

/-- A sink that counts its calls and returns 0. -/
def counting_sink : Callback Nat := fun _ n => (0, n + 1)

/-- A sink that counts its calls and returns 1, a failure. -/
def refusing_sink : Callback Nat := fun _ n => (1, n + 1)

/-- A chunk `abcd` without data. -/
def sample_other : Chunk := .other [97, 98, 99, 100] [] [0, 0, 0, 0]

/-- A chunk `abcd` with one byte of data. -/
def sample_other_data : Chunk := .other [97, 98, 99, 100] [7] [0, 0, 0, 0]

/-- A tile chunk `STAR` of version 1 with nuniq 18 and three bytes of data. -/
def sample_tile : Chunk := .tile [83, 84, 65, 82] ⟨1, 18, 3, [1, 2, 3]⟩ [0, 0, 0, 0]

/-- A tile chunk `STAR` of version 1 with nuniq 8 and three bytes of data. -/
def sample_tile_nuniq8 : Chunk := .tile [83, 84, 65, 82] ⟨1, 8, 3, [1, 2, 3]⟩ [0, 0, 0, 0]

/-- The 40-byte file whose only chunk is a tile chunk `STAR` of declared length
20 that declares the compressed size -4. -/
def negative_comp_size_file : List Byte :=
  EPHE ++ bytes_of_int32 FILE_VERSION ++ [83, 84, 65, 82] ++ bytes_of_int32 20 ++
    bytes_of_int32 1 ++ bytes_of_uint64 18 ++ bytes_of_int32 3 ++ bytes_of_int32 (-4) ++
    [0, 0, 0, 0]

/-! ## Lemmas on machine integers, bytes and reads -/


theorem toInt32_of_range {x : Int} (h1 : -2 ^ 31 ≤ x) (h2 : x < 2 ^ 31) : toInt32 x = x := by
  unfold toInt32; omega

theorem length_le_bytes (n x : Nat) : (le_bytes n x).length = n := by
  induction n generalizing x with
  | zero => rfl
  | succ n ih => simp [le_bytes, ih]

theorem le_nat_le_bytes (n x : Nat) : le_nat (le_bytes n x) = x % 256 ^ n := by
  induction n generalizing x with
  | zero => simp [le_bytes, le_nat, Nat.mod_one]
  | succ n ih =>
    simp only [le_bytes, le_nat, ih]
    rw [pow_succ', Nat.mod_mul]

@[simp] theorem length_bytes_of_int32 (x : Int) : (bytes_of_int32 x).length = 4 :=
  length_le_bytes 4 _

@[simp] theorem length_bytes_of_uint64 (x : Nat) : (bytes_of_uint64 x).length = 8 :=
  length_le_bytes 8 _

theorem int32_of_bytes_of_int32 {x : Int} (h1 : -2 ^ 31 ≤ x) (h2 : x < 2 ^ 31) :
    int32_of_bytes (bytes_of_int32 x) = x := by
  unfold int32_of_bytes bytes_of_int32
  rw [le_nat_le_bytes]
  unfold toInt32
  have : (256 : Nat) ^ 4 = 4294967296 := by norm_num
  rw [this]
  omega

theorem uint64_of_bytes_of_uint64 {x : Nat} (h : x < 2 ^ 64) :
    uint64_of_bytes (bytes_of_uint64 x) = x := by
  unfold uint64_of_bytes bytes_of_uint64
  rw [le_nat_le_bytes]
  have : (256 : Nat) ^ 8 = 2 ^ 64 := by norm_num
  rw [this, Nat.mod_mod, Nat.mod_eq_of_lt h]

theorem memcpy_of_At {buf : List Byte} {off : Int} {bs tail : List Byte} {n : Int}
    (h : At buf off (bs ++ tail)) (hn : n = bs.length) :
    memcpy buf off n = some bs ∧ At buf (off + n) tail := by
  obtain ⟨h0, h1, h2⟩ := h
  have hlen : buf.length - off.toNat = bs.length + tail.length := by
    have := congrArg List.length h2
    simpa using this
  subst hn
  refine ⟨?_, ?_, ?_, ?_⟩
  · unfold memcpy
    rw [if_pos (by omega), h2]
    simp
  · omega
  · omega
  · have : (off + (bs.length : Int)).toNat = off.toNat + bs.length := by omega
    rw [this, ← List.drop_drop, h2]
    simp

theorem READ_int32_of_At {buf : List Byte} (cur : Cursor) {bs tail : List Byte}
    (h : At buf cur.data (bs ++ tail)) (hn : bs.length = 4) (hs : 4 ≤ cur.data_size) :
    READ_int32 buf cur = .ok (int32_of_bytes bs, ⟨cur.data + 4, cur.data_size - 4⟩) ∧
      At buf (cur.data + 4) tail := by
  obtain ⟨hm, hat⟩ := memcpy_of_At (n := 4) h (by simp [hn])
  refine ⟨?_, hat⟩
  unfold READ_int32
  rw [if_neg (by omega), hm]

theorem chunk_read_of_At {buf : List Byte} (c : chunk_t) (cur : Cursor) {bs tail : List Byte}
    (size : Int) (h : At buf cur.data (bs ++ tail)) (hn : size = bs.length)
    (hpos : -2 ^ 31 ≤ c.pos + size) (hlen : c.pos + size ≤ c.length) (hlen2 : c.length < 2 ^ 31)
    (hs : size ≤ cur.data_size) :
    chunk_read buf c cur size =
        .ok (bs, { c with pos := c.pos + size }, ⟨cur.data + size, cur.data_size - size⟩) ∧
      At buf (cur.data + size) tail := by
  obtain ⟨hm, hat⟩ := memcpy_of_At h hn
  refine ⟨?_, hat⟩
  unfold chunk_read
  simp only []
  rw [toInt32_of_range hpos (by omega), if_neg (by omega), if_neg (by omega), hm]

theorem length_Tile_bytes (t : Tile) : t.bytes.length = 20 + t.comp.length := by
  simp [Tile.bytes]; omega

theorem chunk_read_start_of_At {buf : List Byte} {cur : Cursor} {ty lenb tail : List Byte}
    (h : At buf cur.data (ty ++ (lenb ++ tail))) (hty : ty.length = 4) (hl : lenb.length = 4)
    (hs : 8 ≤ cur.data_size) :
    chunk_read_start buf cur =
        .ok (some (⟨ty, int32_of_bytes lenb, 0⟩, ⟨cur.data + 8, cur.data_size - 8⟩)) ∧
      At buf (cur.data + 8) tail := by
  obtain ⟨hm, hat⟩ := memcpy_of_At (n := 4) h (by simp [hty])
  obtain ⟨hr, hat2⟩ := READ_int32_of_At ⟨cur.data + 4, cur.data_size - 4⟩ hat hl
    (by simp; omega)
  have e1 : cur.data + 4 + 4 = cur.data + 8 := by omega
  have e2 : cur.data_size - 4 - 4 = cur.data_size - 8 := by omega
  simp only [e1, e2] at hr hat2
  refine ⟨?_, hat2⟩
  unfold chunk_read_start
  rw [if_neg (by omega), if_neg (by omega), hm]
  simp only [hr]

theorem chunk_read_finish_of_At {buf : List Byte} (c : chunk_t) (cur : Cursor)
    {crc tail : List Byte} (h : At buf cur.data (crc ++ tail)) (hc : crc.length = 4)
    (hpos : c.pos = c.length) (hs : 4 ≤ cur.data_size) :
    chunk_read_finish buf c cur = .ok ⟨cur.data + 4, cur.data_size - 4⟩ ∧
      At buf (cur.data + 4) tail := by
  obtain ⟨hr, hat⟩ := READ_int32_of_At cur h hc hs
  refine ⟨?_, hat⟩
  unfold chunk_read_finish
  rw [if_neg (by simp [hpos])]
  simp only [hr]

theorem read_tile_of_At {buf : List Byte} (c : chunk_t) (cur : Cursor) {t : Tile}
    {tail : List Byte} (h : At buf cur.data (t.bytes ++ tail)) (hwf : t.wf)
    (hpos : c.pos = 0) (hlen : c.length = 20 + t.comp.length)
    (hs : 20 + (t.comp.length : Int) ≤ cur.data_size) :
    read_tile buf c cur =
        .ok (⟨t.version, t.nuniq, toUInt64 t.size, t.comp.length, t.comp⟩,
          { c with pos := 20 + t.comp.length },
          ⟨cur.data + (20 + t.comp.length), cur.data_size - (20 + t.comp.length)⟩) ∧
      At buf (cur.data + (20 + t.comp.length)) tail := by
  obtain ⟨hv1, hv2, hnu, hs1, hs2, hcl⟩ := hwf
  have hcl' : (20 : Int) + t.comp.length < 2 ^ 31 := by exact_mod_cast hcl
  simp only [Tile.bytes, List.append_assoc] at h
  obtain ⟨r1, at1⟩ := chunk_read_of_At c cur 4 h (by simp)
    (by omega) (by omega) (by omega) (by omega)
  obtain ⟨r2, at2⟩ := chunk_read_of_At { c with pos := c.pos + 4 }
    ⟨cur.data + 4, cur.data_size - 4⟩ 8 at1 (by simp)
    (by simp; omega) (by simp; omega) (by simp; omega) (by simp; omega)
  obtain ⟨r3, at3⟩ := chunk_read_of_At { c with pos := c.pos + 4 + 8 }
    ⟨cur.data + 4 + 8, cur.data_size - 4 - 8⟩ 4 at2 (by simp)
    (by simp; omega) (by simp; omega) (by simp; omega) (by simp; omega)
  obtain ⟨r4, at4⟩ := chunk_read_of_At { c with pos := c.pos + 4 + 8 + 4 }
    ⟨cur.data + 4 + 8 + 4, cur.data_size - 4 - 8 - 4⟩ 4 at3 (by simp)
    (by simp; omega) (by simp; omega) (by simp; omega) (by simp; omega)
  obtain ⟨r5, at5⟩ := chunk_read_of_At { c with pos := c.pos + 4 + 8 + 4 + 4 }
    ⟨cur.data + 4 + 8 + 4 + 4, cur.data_size - 4 - 8 - 4 - 4⟩
    t.comp.length (by simpa using at4) rfl
    (by simp; omega) (by simp; omega) (by simp; omega) (by simp; omega)
  have e1 : cur.data + 4 + 8 + 4 + 4 + (t.comp.length : Int) = cur.data + (20 + t.comp.length) := by
    omega
  have e2 : cur.data_size - 4 - 8 - 4 - 4 - (t.comp.length : Int) =
      cur.data_size - (20 + t.comp.length) := by omega
  have e3 : c.pos + 4 + 8 + 4 + 4 + (t.comp.length : Int) = 20 + t.comp.length := by omega
  simp only [e1, e2, e3] at r5 at5
  refine ⟨?_, at5⟩
  unfold read_tile CHUNK_READ_int32 CHUNK_READ_uint64
  simp only [r1, r2, r3, r4]
  rw [int32_of_bytes_of_int32 (by omega) (by omega)]
  simp only [r5]
  rw [int32_of_bytes_of_int32 hv1 hv2, uint64_of_bytes_of_uint64 hnu,
    int32_of_bytes_of_int32 hs1 hs2]

theorem length_tile_chunk (type : List Byte) (t : Tile) (crc : List Byte)
    (hty : type.length = 4) (hc : crc.length = 4) :
    (Chunk.tile type t crc).bytes.length = 32 + t.comp.length := by
  simp [Chunk.bytes, length_Tile_bytes, hty, hc]; omega

theorem length_other_chunk (type data crc : List Byte)
    (hty : type.length = 4) (hc : crc.length = 4) :
    (Chunk.other type data crc).bytes.length = 12 + data.length := by
  simp [Chunk.bytes, hty, hc]; omega

theorem eph_loop_tile_step {U : Type} (log2_half : Log2Half)
    (uncompress : Uncompress) (callback : Callback U)
    {buf : List Byte} {cur : Cursor} {type : List Byte} {t : Tile} {crc rest : List Byte}
    (fuel : Nat) (user : U) (calls : List SinkCall)
    (h : At buf cur.data ((Chunk.tile type t crc).bytes ++ rest))
    (hwf : (Chunk.tile type t crc).wf)
    (hs : 32 + (t.comp.length : Int) ≤ cur.data_size) :
    eph_loop log2_half uncompress callback buf (fuel + 1) cur user calls =
        eph_loop log2_half uncompress callback buf fuel
          ⟨cur.data + (32 + t.comp.length), cur.data_size - (32 + t.comp.length)⟩
          (callback (tile_call log2_half uncompress type t) user).2
          (calls ++ [tile_call log2_half uncompress type t]) ∧
      At buf (cur.data + (32 + t.comp.length)) rest := by
  obtain ⟨hty, htile, hc, htwf⟩ := hwf
  have hcl : (20 : Int) + t.comp.length < 2 ^ 31 := by exact_mod_cast htwf.2.2.2.2.2
  simp only [Chunk.bytes, List.append_assoc] at h
  obtain ⟨r1, at1⟩ := chunk_read_start_of_At h hty (by simp) (by omega)
  rw [length_Tile_bytes, int32_of_bytes_of_int32 (by push_cast; omega) (by push_cast; omega)]
    at r1
  obtain ⟨r2, at2⟩ := read_tile_of_At ⟨type, ((20 + t.comp.length : Nat) : Int), 0⟩
    ⟨cur.data + 8, cur.data_size - 8⟩ at1 htwf rfl (by simp) (by simp; omega)
  obtain ⟨r3, at3⟩ := chunk_read_finish_of_At
    { (⟨type, ((20 + t.comp.length : Nat) : Int), 0⟩ : chunk_t) with
      pos := 20 + t.comp.length }
    ⟨cur.data + 8 + (20 + t.comp.length), cur.data_size - 8 - (20 + t.comp.length)⟩
    at2 hc (by simp) (by simp; omega)
  have e1 : cur.data + 8 + (20 + (t.comp.length : Int)) + 4 = cur.data + (32 + t.comp.length) := by
    omega
  have e2 : cur.data_size - 8 - (20 + (t.comp.length : Int)) - 4 =
      cur.data_size - (32 + t.comp.length) := by omega
  simp only [e1, e2] at r3 at3
  refine ⟨?_, at3⟩
  rw [eph_loop]
  simp only [r1, htile, if_true, r2, r3]
  rfl

theorem eph_loop_other_step {U : Type} (log2_half : Log2Half)
    (uncompress : Uncompress) (callback : Callback U)
    {buf : List Byte} {cur : Cursor} {type crc rest : List Byte}
    (fuel : Nat) (user : U) (calls : List SinkCall)
    (h : At buf cur.data ((Chunk.other type [] crc).bytes ++ rest))
    (hwf : (Chunk.other type [] crc).wf)
    (hs : 12 ≤ cur.data_size) :
    eph_loop log2_half uncompress callback buf (fuel + 1) cur user calls =
        eph_loop log2_half uncompress callback buf fuel ⟨cur.data + 12, cur.data_size - 12⟩ user calls ∧
      At buf (cur.data + 12) rest := by
  obtain ⟨hty, htile, hc, -⟩ := hwf
  simp only [Chunk.bytes, List.append_assoc, List.nil_append] at h
  obtain ⟨r1, at1⟩ := chunk_read_start_of_At h hty (by simp) (by omega)
  rw [show int32_of_bytes (bytes_of_int32 ((([] : List Byte).length : Nat) : Int)) = 0 from
    int32_of_bytes_of_int32 (by simp) (by simp)] at r1
  obtain ⟨r3, at3⟩ := chunk_read_finish_of_At ⟨type, 0, 0⟩
    ⟨cur.data + 8, cur.data_size - 8⟩ at1 hc rfl (by simp; omega)
  have e1 : cur.data + 8 + 4 = cur.data + 12 := by omega
  have e2 : cur.data_size - 8 - 4 = cur.data_size - 12 := by omega
  simp only [e1, e2] at r3 at3
  refine ⟨?_, at3⟩
  rw [eph_loop]
  simp only [r1, htile, r3]
  rfl

theorem eph_loop_other_fail {U : Type} (log2_half : Log2Half)
    (uncompress : Uncompress) (callback : Callback U)
    {buf : List Byte} {cur : Cursor} {type data crc rest : List Byte}
    (fuel : Nat) (user : U) (calls : List SinkCall)
    (h : At buf cur.data ((Chunk.other type data crc).bytes ++ rest))
    (hwf : (Chunk.other type data crc).wf) (hd : data ≠ [])
    (hs : 8 ≤ cur.data_size) :
    eph_loop log2_half uncompress callback buf (fuel + 1) cur user calls =
      ⟨.aborted .ChunkNotClosed, user, calls⟩ := by
  obtain ⟨hty, htile, hc, hdl⟩ := hwf
  have hdl' : (data.length : Int) < 2 ^ 31 := by exact_mod_cast hdl
  have hpos : 0 < data.length := List.length_pos.mpr hd
  simp only [Chunk.bytes, List.append_assoc] at h
  obtain ⟨r1, at1⟩ := chunk_read_start_of_At h hty (by simp) (by omega)
  rw [int32_of_bytes_of_int32 (by omega) (by omega)] at r1
  rw [eph_loop]
  simp only [r1, htile]
  have : chunk_read_finish buf ⟨type, data.length, 0⟩ ⟨cur.data + 8, cur.data_size - 8⟩ =
      .error .ChunkNotClosed := by
    unfold chunk_read_finish
    rw [if_pos (by simp; omega)]
  simp [this]

theorem At_zero (buf : List Byte) : At buf 0 buf := by
  refine ⟨le_refl _, ?_, ?_⟩
  · exact_mod_cast Nat.zero_le _
  · simp

theorem eph_load_header {U : Type} (log2_half : Log2Half)
    (uncompress : Uncompress) (callback : Callback U)
    (user : U) (buf vb rest : List Byte) (hvb : vb.length = 4)
    (hbuf : buf = EPHE ++ (vb ++ rest)) :
    eph_load log2_half uncompress buf buf.length user callback =
      (if int32_of_bytes vb ≠ FILE_VERSION then ⟨.aborted .UnsupportedVersion, user, []⟩
       else eph_loop log2_half uncompress callback buf (rest.length + 1) ⟨8, rest.length⟩ user []) ∧
      At buf 8 rest := by
  have h0 : At buf 0 (EPHE ++ (vb ++ rest)) := by
    rw [← hbuf]; exact At_zero _
  have hlen : (buf.length : Int) = 8 + rest.length := by
    rw [hbuf]; simp [EPHE, hvb]; omega
  obtain ⟨hm, at1⟩ := memcpy_of_At (n := 4) h0 (by simp [EPHE])
  obtain ⟨hr, at2⟩ := READ_int32_of_At ⟨4, (buf.length : Int) - 4⟩
    (by simpa using at1) hvb (by simp only []; omega)
  have e1 : (buf.length : Int) - 4 - 4 = rest.length := by omega
  have e2 : (4 : Int) + 4 = 8 := by norm_num
  simp only [e1, e2] at hr at2
  refine ⟨?_, at2⟩
  unfold eph_load
  rw [if_neg (by omega), hm]
  simp only [ne_eq, not_true_eq_false, if_false, hr, Int.toNat_ofNat]

theorem length_chunks_bytes_cons (c : Chunk) (cs : List Chunk) :
    (chunks_bytes (c :: cs)).length = c.bytes.length + (chunks_bytes cs).length := by
  simp [chunks_bytes]

theorem eph_loop_chunks {U : Type} (log2_half : Log2Half)
    (uncompress : Uncompress) (callback : Callback U)
    (buf : List Byte) (cs : List Chunk) (hwf : ∀ c ∈ cs, c.wf)
    (hz : ∀ c ∈ cs, c.fully_read) :
    ∀ (fuel : Nat) (cur : Cursor) (user : U) (calls : List SinkCall),
      At buf cur.data (chunks_bytes cs) → cur.data_size = (chunks_bytes cs).length →
      (chunks_bytes cs).length < fuel →
      eph_loop log2_half uncompress callback buf fuel cur user calls =
        ⟨.returned 0, run_calls callback user (chunks_calls log2_half uncompress cs),
          calls ++ chunks_calls log2_half uncompress cs⟩ := by
  induction cs with
  | nil =>
    intro fuel cur user calls _ hs hf
    obtain ⟨fuel, rfl⟩ : ∃ n, fuel = n + 1 := ⟨fuel - 1, by omega⟩
    have : chunk_read_start buf cur = .ok none := by
      unfold chunk_read_start
      rw [if_pos (by simpa [chunks_bytes] using hs)]
    rw [eph_loop]
    simp [this, chunks_calls, run_calls]
  | cons c cs ih =>
    intro fuel cur user calls hat hs hf
    have hwf' : ∀ c ∈ cs, c.wf := fun c hc => hwf c (List.mem_cons_of_mem _ hc)
    have hz' : ∀ c ∈ cs, c.fully_read := fun c hc => hz c (List.mem_cons_of_mem _ hc)
    have hc : c.wf := hwf c (List.mem_cons_self _ _)
    rw [length_chunks_bytes_cons] at hs hf
    obtain ⟨fuel, rfl⟩ : ∃ n, fuel = n + 1 := ⟨fuel - 1, by omega⟩
    cases c with
    | tile type t crc =>
      have hl := length_tile_chunk type t crc hc.1 hc.2.2.1
      obtain ⟨hstep, hat'⟩ := eph_loop_tile_step log2_half uncompress callback fuel user calls
        (by simpa [chunks_bytes] using hat) hc (by omega)
      rw [hstep, ih hwf' hz' fuel _ _ _ hat' (by simp only []; omega) (by omega)]
      simp [chunks_calls, run_calls]
    | other type data crc =>
      obtain rfl : data = [] := hz _ (List.mem_cons_self _ _)
      have hl := length_other_chunk type [] crc hc.1 hc.2.2.1
      simp only [List.length_nil] at hl
      obtain ⟨hstep, hat'⟩ := eph_loop_other_step log2_half uncompress callback fuel user calls
        (by simpa [chunks_bytes] using hat) hc (by omega)
      rw [hstep, ih hwf' hz' fuel _ _ _ hat' (by simp only []; omega)
        (by omega)]
      simp [chunks_calls, run_calls]

theorem eph_load_file {U : Type} (log2_half : Log2Half)
    (uncompress : Uncompress) (callback : Callback U)
    (user : U) (cs : List Chunk) (hwf : ∀ c ∈ cs, c.wf) (hz : ∀ c ∈ cs, c.fully_read) :
    eph_load log2_half uncompress (file_bytes cs) (file_bytes cs).length user callback =
      ⟨.returned 0, run_calls callback user (chunks_calls log2_half uncompress cs),
        chunks_calls log2_half uncompress cs⟩ := by
  obtain ⟨h1, h2⟩ := eph_load_header log2_half uncompress callback user (file_bytes cs)
    (bytes_of_int32 FILE_VERSION) (chunks_bytes cs) (length_bytes_of_int32 _)
    (by simp [file_bytes])
  have hv : int32_of_bytes (bytes_of_int32 FILE_VERSION) = FILE_VERSION :=
    int32_of_bytes_of_int32 (by decide) (by decide)
  rw [h1, if_neg (by simp [hv])]
  rw [eph_loop_chunks log2_half uncompress callback _ cs hwf hz _ _ _ _ h2 rfl (by omega)]
  simp

/-! ## Lemmas on the nuniq decomposition -/

theorem nuniq_order_of_lt (log2_half : Log2Half) (nuniq : Nat) (h0 : nuniq / 4 ≠ 0)
    (h : nuniq / 4 < 2 ^ 32) :
    nuniq_order log2_half nuniq = ((Nat.log2 (nuniq / 4) / 2 : Nat) : Int) := by
  unfold nuniq_order
  rw [if_neg h0, if_pos h]

theorem nuniq_order_encode (log2_half : Log2Half) (order pixel : Nat) (ho : order ≤ 15)
    (hp : pixel < 4 * 4 ^ order) :
    nuniq_order log2_half (4 * 4 ^ order + pixel) = order := by
  have hle : (4 : Nat) ^ order ≤ 4 ^ 15 := Nat.pow_le_pow_right (by decide) ho
  have h4 : (4 : Nat) ^ order = 2 ^ (2 * order) := by rw [pow_mul]; norm_num
  have hpos : 0 < 4 ^ order := Nat.pow_pos (by decide)
  have hx : (4 * 4 ^ order + pixel) / 4 = 4 ^ order + pixel / 4 := by omega
  have hq : pixel / 4 < 4 ^ order := by omega
  have hne : 4 ^ order + pixel / 4 ≠ 0 := by omega
  have hlog : Nat.log2 (4 ^ order + pixel / 4) = 2 * order := by
    apply Nat.le_antisymm
    · have : Nat.log2 (4 ^ order + pixel / 4) < 2 * order + 1 := by
        rw [Nat.log2_lt hne, pow_succ, ← h4]; omega
      omega
    · rw [Nat.le_log2 hne, ← h4]; omega
  rw [nuniq_order_of_lt log2_half _ (by rw [hx]; exact hne) (by rw [hx]; norm_num at hle ⊢; omega),
    hx, hlog]
  simp

/-- From `nuniq / 4 = 2 ^ 32` on the order is the one of the floating-point
library.  At `nuniq = 2 ^ 52 - 8` the quotient is `2 ^ 50 - 2`, whose `log2`
rounds to the double 50: with a library that gives 25 there, the order is 25
(not 24, the half of the floor of the logarithm) and the pixel is `-1048584`. -/
theorem nuniq_order_rounded (log2_half : Log2Half) (h : log2_half (2 ^ 50 - 2) = 25) :
    nuniq_order log2_half (2 ^ 52 - 8) = 25 ∧
      nuniq_pix (2 ^ 52 - 8) (nuniq_order log2_half (2 ^ 52 - 8)) = -1048584 := by
  have ho : nuniq_order log2_half (2 ^ 52 - 8) = 25 := by
    unfold nuniq_order
    rw [if_neg (by norm_num), if_neg (by norm_num)]
    rw [← h]; norm_num
  refine ⟨ho, ?_⟩
  rw [ho]; decide

theorem nuniq_order_18 (log2_half : Log2Half) : nuniq_order log2_half 18 = 1 := by
  rw [nuniq_order_of_lt log2_half 18 (by decide) (by decide)]; decide!

theorem nuniq_order_8 (log2_half : Log2Half) : nuniq_order log2_half 8 = 0 := by
  rw [nuniq_order_of_lt log2_half 8 (by decide) (by decide)]; decide!

theorem nuniq_pix_encode (order pixel : Nat) (ho : order ≤ 14) (hp : pixel < 4 * 4 ^ order) :
    nuniq_pix (4 * 4 ^ order + pixel) order = pixel := by
  have h1 : ∀ k : Int, 0 ≤ k → k ≤ 28 → shl1 (toInt32 k) = 2 ^ k.toNat := by
    intro k hk0 hk1
    have hk : toInt32 k = k := toInt32_of_range (by omega) (by omega)
    have hm : (k % 32).toNat = k.toNat := by omega
    have hpow : (2 : Int) ^ k.toNat ≤ 2 ^ 28 := pow_le_pow_right₀ (by norm_num) (by omega)
    have hpos : (0 : Int) < 2 ^ k.toNat := by positivity
    rw [shl1, hk, hm]
    exact toInt32_of_range (by omega) (by omega)
  have h2 : ((2 * (order : Int)).toNat) = 2 * order := by omega
  have h4 : (4 : Int) ^ order = 2 ^ (2 * order) := by rw [pow_mul]; norm_num
  have hle : (4 : Int) ^ order ≤ 4 ^ 14 := pow_le_pow_right₀ (by norm_num) ho
  have hpos : (0 : Int) < 4 ^ order := by positivity
  have hp2 : (pixel : Int) < 4 * 4 ^ order := by exact_mod_cast hp
  unfold nuniq_pix
  have h5 : toInt32 (4 * (4 : Int) ^ order) = 4 * 4 ^ order :=
    toInt32_of_range (by omega) (by omega)
  rw [h1 _ (by omega) (by omega), h2, ← h4, h5]
  push_cast
  rw [toInt32_of_range (by omega) (by omega)]
  omega

/-! ## Lemmas on the calls and on the value returned by the sink -/

theorem chunks_calls_append (log2_half : Log2Half) (uncompress : Uncompress) (xs ys : List Chunk) :
    chunks_calls log2_half uncompress (xs ++ ys) = chunks_calls log2_half uncompress xs ++ chunks_calls log2_half uncompress ys := by
  induction xs with
  | nil => simp [chunks_calls]
  | cons c cs ih => cases c <;> simp [chunks_calls, ih]

theorem toInt32_toUInt64 {x : Int} (h1 : -2 ^ 31 ≤ x) (h2 : x < 2 ^ 31) :
    toInt32 (toUInt64 x) = x := by
  unfold toInt32 toUInt64
  omega

theorem eph_loop_sink_return {U : Type} (log2_half : Log2Half)
    (uncompress : Uncompress) (cb cb2 : Callback U)
    (buf : List Byte) (h : ∀ call u, (cb call u).2 = (cb2 call u).2) :
    ∀ (fuel : Nat) (cur : Cursor) (user : U) (calls : List SinkCall),
      eph_loop log2_half uncompress cb buf fuel cur user calls =
        eph_loop log2_half uncompress cb2 buf fuel cur user calls := by
  intro fuel
  induction fuel with
  | zero => intro cur user calls; rfl
  | succ fuel ih =>
    intro cur user calls
    rw [eph_loop, eph_loop]
    cases chunk_read_start buf cur with
    | error e => rfl
    | ok r =>
      cases r with
      | none => rfl
      | some p =>
        obtain ⟨c, cur1⟩ := p
        simp only []
        by_cases ht : is_tile_type c.type = true
        · simp only [ht, if_true]
          cases read_tile buf c cur1 with
          | error e => rfl
          | ok q =>
            obtain ⟨f, c2, cur2⟩ := q
            simp only [h]
            cases chunk_read_finish buf c2 cur2 with
            | error e => rfl
            | ok cur3 => exact ih _ _ _
        · simp only [ht]
          cases chunk_read_finish buf c cur1 with
          | error e => rfl
          | ok cur3 => exact ih _ _ _

/-! ## Lemmas on the decode of the first bytes of a buffer -/

theorem memcpy_ok {buf : List Byte} {off n : Int} {bs : List Byte}
    (h : memcpy buf off n = some bs) : 0 ≤ off ∧ 0 ≤ n ∧ off + n ≤ buf.length := by
  unfold memcpy at h
  split at h
  · assumption
  · exact absurd h (by simp)

theorem memcpy_take {buf : List Byte} {off n : Int} {bs : List Byte} {k : Nat}
    (h : memcpy buf off n = some bs) (hk : k ≤ buf.length) (hle : off + n ≤ k) :
    memcpy (buf.take k) off n = some bs := by
  obtain ⟨h0, h1, h2⟩ := memcpy_ok h
  unfold memcpy at h ⊢
  rw [if_pos ⟨h0, h1, h2⟩] at h
  rw [if_pos ⟨h0, h1, by rw [List.length_take]; omega⟩]
  rw [← h, List.drop_take, List.take_take]
  congr 2
  omega

theorem READ_int32_take {buf : List Byte} {cur cur1 : Cursor} {v : Int} {k : Nat}
    (h : READ_int32 buf cur = .ok (v, cur1)) (hk : k ≤ buf.length) :
    cur1.data = cur.data + 4 ∧ cur1.data + cur1.data_size = cur.data + cur.data_size ∧
      (cur1.data ≤ k → READ_int32 (buf.take k) (cur.cut k) = .ok (v, cur1.cut k)) ∧
      (k < cur1.data → READ_int32 (buf.take k) (cur.cut k) = .error .Truncated) := by
  unfold READ_int32 at h
  split at h
  · exact absurd h (by simp)
  · rename_i hs
    cases hm : memcpy buf cur.data 4 with
    | none => simp [hm] at h
    | some bs =>
      simp only [hm, Except.ok.injEq, Prod.mk.injEq] at h
      obtain ⟨rfl, rfl⟩ := h
      refine ⟨rfl, by simp only []; omega, ?_, ?_⟩
      · intro hle
        simp only [] at hle
        unfold READ_int32 Cursor.cut
        simp only []
        rw [if_neg (by omega), memcpy_take hm hk hle]
        simp only [Except.ok.injEq, Prod.mk.injEq, true_and, Cursor.mk.injEq]
        omega
      · intro hlt
        simp only [] at hlt
        unfold READ_int32 Cursor.cut
        simp only []
        rw [if_pos (by omega)]

theorem chunk_read_take {buf : List Byte} {c c1 : chunk_t} {cur cur1 : Cursor} {n : Int}
    {bs : List Byte} {k : Nat}
    (h : chunk_read buf c cur n = .ok (bs, c1, cur1)) (hk : k ≤ buf.length) :
    0 ≤ n ∧ cur1.data = cur.data + n ∧
      cur1.data + cur1.data_size = cur.data + cur.data_size ∧
      (cur1.data ≤ k → chunk_read (buf.take k) c (cur.cut k) n = .ok (bs, c1, cur1.cut k)) ∧
      (k < cur1.data → chunk_read (buf.take k) c (cur.cut k) n = .error .Truncated) := by
  unfold chunk_read at h
  simp only [] at h
  split at h
  · exact absurd h (by simp)
  · rename_i hp
    split at h
    · exact absurd h (by simp)
    · rename_i hs
      cases hm : memcpy buf cur.data n with
      | none => simp [hm] at h
      | some bs2 =>
        simp only [hm, Except.ok.injEq, Prod.mk.injEq] at h
        obtain ⟨rfl, rfl, rfl⟩ := h
        obtain ⟨-, hn, -⟩ := memcpy_ok hm
        refine ⟨hn, rfl, by simp only []; omega, ?_, ?_⟩
        · intro hle
          simp only [] at hle
          unfold chunk_read Cursor.cut
          simp only []
          rw [if_neg hp, if_neg (by omega), memcpy_take hm hk hle]
          simp only [Except.ok.injEq, Prod.mk.injEq, true_and, Cursor.mk.injEq]
          omega
        · intro hlt
          simp only [] at hlt
          unfold chunk_read Cursor.cut
          simp only []
          rw [if_neg hp, if_pos (by omega)]

theorem CHUNK_READ_int32_take {buf : List Byte} {c c1 : chunk_t} {cur cur1 : Cursor}
    {v : Int} {k : Nat}
    (h : CHUNK_READ_int32 buf c cur = .ok (v, c1, cur1)) (hk : k ≤ buf.length) :
    cur1.data = cur.data + 4 ∧
      cur1.data + cur1.data_size = cur.data + cur.data_size ∧
      (cur1.data ≤ k → CHUNK_READ_int32 (buf.take k) c (cur.cut k) = .ok (v, c1, cur1.cut k)) ∧
      (k < cur1.data → CHUNK_READ_int32 (buf.take k) c (cur.cut k) = .error .Truncated) := by
  unfold CHUNK_READ_int32 at h
  cases hr : chunk_read buf c cur 4 with
  | error e => simp [hr] at h
  | ok r =>
    obtain ⟨bs, c2, cur2⟩ := r
    simp only [hr, Except.ok.injEq, Prod.mk.injEq] at h
    obtain ⟨rfl, rfl, rfl⟩ := h
    obtain ⟨-, h1, h2, h3, h4⟩ := chunk_read_take hr hk
    refine ⟨h1, h2, ?_, ?_⟩
    · intro hle
      unfold CHUNK_READ_int32
      rw [h3 hle]
    · intro hlt
      unfold CHUNK_READ_int32
      rw [h4 hlt]

theorem CHUNK_READ_uint64_take {buf : List Byte} {c c1 : chunk_t} {cur cur1 : Cursor}
    {v : Nat} {k : Nat}
    (h : CHUNK_READ_uint64 buf c cur = .ok (v, c1, cur1)) (hk : k ≤ buf.length) :
    cur1.data = cur.data + 8 ∧
      cur1.data + cur1.data_size = cur.data + cur.data_size ∧
      (cur1.data ≤ k → CHUNK_READ_uint64 (buf.take k) c (cur.cut k) = .ok (v, c1, cur1.cut k)) ∧
      (k < cur1.data → CHUNK_READ_uint64 (buf.take k) c (cur.cut k) = .error .Truncated) := by
  unfold CHUNK_READ_uint64 at h
  cases hr : chunk_read buf c cur 8 with
  | error e => simp [hr] at h
  | ok r =>
    obtain ⟨bs, c2, cur2⟩ := r
    simp only [hr, Except.ok.injEq, Prod.mk.injEq] at h
    obtain ⟨rfl, rfl, rfl⟩ := h
    obtain ⟨-, h1, h2, h3, h4⟩ := chunk_read_take hr hk
    refine ⟨h1, h2, ?_, ?_⟩
    · intro hle
      unfold CHUNK_READ_uint64
      rw [h3 hle]
    · intro hlt
      unfold CHUNK_READ_uint64
      rw [h4 hlt]

theorem read_tile_take {buf : List Byte} {c c5 : chunk_t} {cur cur5 : Cursor}
    {f : TileFields} {k : Nat}
    (h : read_tile buf c cur = .ok (f, c5, cur5)) (hk : k ≤ buf.length) :
    cur.data + 20 ≤ cur5.data ∧
      cur5.data + cur5.data_size = cur.data + cur.data_size ∧
      (cur5.data ≤ k → read_tile (buf.take k) c (cur.cut k) = .ok (f, c5, cur5.cut k)) ∧
      (k < cur5.data → read_tile (buf.take k) c (cur.cut k) = .error .Truncated) := by
  unfold read_tile at h
  cases h1 : CHUNK_READ_int32 buf c cur with
  | error e => simp [h1] at h
  | ok r1 =>
  obtain ⟨v1, c1, cur1⟩ := r1
  simp only [h1] at h
  cases h2 : CHUNK_READ_uint64 buf c1 cur1 with
  | error e => simp [h2] at h
  | ok r2 =>
  obtain ⟨v2, c2, cur2⟩ := r2
  simp only [h2] at h
  cases h3 : CHUNK_READ_int32 buf c2 cur2 with
  | error e => simp [h3] at h
  | ok r3 =>
  obtain ⟨v3, c3, cur3⟩ := r3
  simp only [h3] at h
  cases h4 : CHUNK_READ_int32 buf c3 cur3 with
  | error e => simp [h4] at h
  | ok r4 =>
  obtain ⟨v4, c4, cur4⟩ := r4
  simp only [h4] at h
  cases h5 : chunk_read buf c4 cur4 v4 with
  | error e => simp [h5] at h
  | ok r5 =>
  obtain ⟨bs, c6, cur6⟩ := r5
  simp only [h5, Except.ok.injEq, Prod.mk.injEq] at h
  obtain ⟨rfl, rfl, rfl⟩ := h
  obtain ⟨d1, s1, ok1, tr1⟩ := CHUNK_READ_int32_take h1 hk
  obtain ⟨d2, s2, ok2, tr2⟩ := CHUNK_READ_uint64_take h2 hk
  obtain ⟨d3, s3, ok3, tr3⟩ := CHUNK_READ_int32_take h3 hk
  obtain ⟨d4, s4, ok4, tr4⟩ := CHUNK_READ_int32_take h4 hk
  obtain ⟨n5, d5, s5, ok5, tr5⟩ := chunk_read_take h5 hk
  refine ⟨by omega, by omega, ?_, ?_⟩
  · intro hle
    unfold read_tile
    rw [ok1 (by omega)]
    simp only []
    rw [ok2 (by omega)]
    simp only []
    rw [ok3 (by omega)]
    simp only []
    rw [ok4 (by omega)]
    simp only []
    rw [ok5 hle]
  · intro hlt
    unfold read_tile
    by_cases g1 : cur1.data ≤ k
    swap
    · rw [tr1 (by omega)]
    rw [ok1 g1]
    simp only []
    by_cases g2 : cur2.data ≤ k
    swap
    · rw [tr2 (by omega)]
    rw [ok2 g2]
    simp only []
    by_cases g3 : cur3.data ≤ k
    swap
    · rw [tr3 (by omega)]
    rw [ok3 g3]
    simp only []
    by_cases g4 : cur4.data ≤ k
    swap
    · rw [tr4 (by omega)]
    rw [ok4 g4]
    simp only []
    rw [tr5 hlt]

theorem chunk_read_start_none {buf : List Byte} {cur : Cursor}
    (h : chunk_read_start buf cur = .ok none) : cur.data_size = 0 := by
  unfold chunk_read_start at h
  split at h
  · assumption
  · split at h
    · exact absurd h (by simp)
    · cases hm : memcpy buf cur.data 4 with
      | none => simp [hm] at h
      | some ty =>
        simp only [hm] at h
        cases hr : READ_int32 buf ⟨cur.data + 4, cur.data_size - 4⟩ with
        | error e => simp [hr] at h
        | ok r => simp [hr] at h

theorem chunk_read_start_take {buf : List Byte} {c : chunk_t} {cur cur1 : Cursor} {k : Nat}
    (h : chunk_read_start buf cur = .ok (some (c, cur1))) (hk : k ≤ buf.length) :
    cur1.data = cur.data + 8 ∧
      cur1.data + cur1.data_size = cur.data + cur.data_size ∧
      (cur1.data ≤ k →
        chunk_read_start (buf.take k) (cur.cut k) = .ok (some (c, cur1.cut k))) ∧
      (cur.data < k → k < cur1.data →
        chunk_read_start (buf.take k) (cur.cut k) = .error .Truncated) := by
  unfold chunk_read_start at h
  split at h
  · exact absurd h (by simp)
  · rename_i hz
    split at h
    · exact absurd h (by simp)
    · rename_i h8
      cases hm : memcpy buf cur.data 4 with
      | none => simp [hm] at h
      | some ty =>
        simp only [hm] at h
        cases hr : READ_int32 buf ⟨cur.data + 4, cur.data_size - 4⟩ with
        | error e => simp [hr] at h
        | ok r =>
          obtain ⟨len, cur2⟩ := r
          simp only [hr, Except.ok.injEq, Option.some.injEq, Prod.mk.injEq] at h
          obtain ⟨rfl, rfl⟩ := h
          obtain ⟨d1, s1, ok1, -⟩ := READ_int32_take hr hk
          simp only [] at d1 s1
          refine ⟨by omega, by omega, ?_, ?_⟩
          · intro hle
            have hk2 : (Cursor.cut k ⟨cur.data + 4, cur.data_size - 4⟩) =
                ⟨cur.data + 4, (k : Int) - cur.data - 4⟩ := by
              simp only [Cursor.cut, Cursor.mk.injEq, true_and]; omega
            have ok1' := ok1 hle
            rw [hk2] at ok1'
            unfold chunk_read_start
            simp only [Cursor.cut]
            rw [if_neg (by omega), if_neg (by omega), memcpy_take hm hk (by omega), ok1']
            rfl
          · intro hlt1 hlt2
            unfold chunk_read_start
            simp only [Cursor.cut]
            rw [if_neg (by omega), if_pos (by omega)]

theorem chunk_read_finish_take {buf : List Byte} {c : chunk_t} {cur cur1 : Cursor} {k : Nat}
    (h : chunk_read_finish buf c cur = .ok cur1) (hk : k ≤ buf.length) :
    cur1.data = cur.data + 4 ∧
      cur1.data + cur1.data_size = cur.data + cur.data_size ∧
      (cur1.data ≤ k → chunk_read_finish (buf.take k) c (cur.cut k) = .ok (cur1.cut k)) ∧
      (k < cur1.data → chunk_read_finish (buf.take k) c (cur.cut k) = .error .Truncated) := by
  unfold chunk_read_finish at h
  split at h
  · exact absurd h (by simp)
  · rename_i hp
    cases hr : READ_int32 buf cur with
    | error e => simp [hr] at h
    | ok r =>
      obtain ⟨v, cur2⟩ := r
      simp only [hr, Except.ok.injEq] at h
      subst h
      obtain ⟨d1, s1, ok1, tr1⟩ := READ_int32_take hr hk
      refine ⟨d1, s1, ?_, ?_⟩
      · intro hle
        unfold chunk_read_finish
        rw [if_neg hp, ok1 hle]
      · intro hlt
        unfold chunk_read_finish
        rw [if_neg hp, tr1 hlt]

theorem eph_loop_take {U : Type} (log2_half : Log2Half)
    (uncompress : Uncompress) (callback : Callback U)
    (buf : List Byte) (k : Nat) (hk : k < buf.length) :
    ∀ (fuel : Nat) (cur : Cursor) (user : U) (calls : List SinkCall) (fuel2 : Nat),
      cur.data + cur.data_size = buf.length → cur.data ≤ k →
      (eph_loop log2_half uncompress callback buf fuel cur user calls).outcome = .returned 0 →
      (k : Int) ∉ chunk_starts buf fuel cur → (k : Int) - cur.data < fuel2 →
      (eph_loop log2_half uncompress callback (buf.take k) fuel2 (cur.cut k) user calls).outcome =
        .aborted .Truncated := by
  intro fuel
  induction fuel with
  | zero =>
    intro cur user calls fuel2 _ _ hok
    simp [eph_loop] at hok
  | succ fuel ih =>
    intro cur user calls fuel2 hinv hle hok hns hf
    have hkl : k ≤ buf.length := by omega
    rw [chunk_starts, List.mem_cons, not_or] at hns
    obtain ⟨hne, hns⟩ := hns
    have hlt : cur.data < k := by omega
    obtain ⟨fuel2, rfl⟩ : ∃ n, fuel2 = n + 1 := ⟨fuel2 - 1, by omega⟩
    rw [eph_loop] at hok
    rw [eph_loop]
    cases h1 : chunk_read_start buf cur with
    | error e => simp [h1] at hok
    | ok r =>
    cases r with
    | none =>
      have := chunk_read_start_none h1
      omega
    | some p =>
    obtain ⟨c, cur1⟩ := p
    simp only [h1] at hok
    obtain ⟨d1, s1, ok1, tr1⟩ := chunk_read_start_take h1 hkl
    by_cases g1 : cur1.data ≤ k
    swap
    · rw [tr1 hlt (by omega)]
    rw [ok1 g1]
    simp only []
    by_cases ht : is_tile_type c.type = true
    · simp only [ht, if_true] at hok ⊢
      cases h2 : read_tile buf c cur1 with
      | error e => simp [h2] at hok
      | ok q =>
      obtain ⟨f, c2, cur2⟩ := q
      simp only [h2] at hok
      obtain ⟨d2, s2, ok2, tr2⟩ := read_tile_take h2 hkl
      by_cases g2 : cur2.data ≤ k
      swap
      · rw [tr2 (by omega)]
      rw [ok2 g2]
      simp only []
      cases h3 : chunk_read_finish buf c2 cur2 with
      | error e => simp [h3] at hok
      | ok cur3 =>
      simp only [h3] at hok
      obtain ⟨d3, s3, ok3, tr3⟩ := chunk_read_finish_take h3 hkl
      by_cases g3 : cur3.data ≤ k
      swap
      · rw [tr3 (by omega)]
      rw [ok3 g3]
      simp only []
      have hnext : chunk_next buf cur = some cur3 := by
        simp [chunk_next, h1, ht, h2, h3]
      rw [hnext] at hns
      exact ih cur3 _ _ fuel2 (by omega) g3 hok hns (by omega)
    · simp only [ht] at hok ⊢
      cases h3 : chunk_read_finish buf c cur1 with
      | error e => simp [h3] at hok
      | ok cur3 =>
      simp only [h3] at hok
      obtain ⟨d3, s3, ok3, tr3⟩ := chunk_read_finish_take h3 hkl
      by_cases g3 : cur3.data ≤ k
      swap
      · simp [tr3 (by omega)]
      rw [ok3 g3]
      simp only []
      have hnext : chunk_next buf cur = some cur3 := by
        simp [chunk_next, h1, ht, h3]
      rw [hnext] at hns
      exact ih cur3 _ _ fuel2 (by omega) g3 hok hns (by omega)

/-! ## The fuel of the loop is enough -/

theorem chunk_read_start_size {buf : List Byte} {c : chunk_t} {cur cur1 : Cursor}
    (h : chunk_read_start buf cur = .ok (some (c, cur1))) : 8 ≤ cur.data_size := by
  unfold chunk_read_start at h
  split at h
  · exact absurd h (by simp)
  · split at h
    · exact absurd h (by simp)
    · omega

theorem eph_loop_fuel_enough {U : Type} (log2_half : Log2Half)
    (uncompress : Uncompress) (callback : Callback U)
    (buf : List Byte) :
    ∀ (fuel : Nat) (cur : Cursor) (user : U) (calls : List SinkCall),
      0 < fuel → cur.data_size < fuel →
      (eph_loop log2_half uncompress callback buf fuel cur user calls).outcome ≠ .outOfFuel := by
  intro fuel
  induction fuel with
  | zero => intro cur user calls h; omega
  | succ fuel ih =>
    intro cur user calls _ hf
    rw [eph_loop]
    cases h1 : chunk_read_start buf cur with
    | error e => simp
    | ok r =>
    cases r with
    | none => simp
    | some p =>
    obtain ⟨c, cur1⟩ := p
    simp only []
    have h8 := chunk_read_start_size h1
    obtain ⟨d1, s1, -, -⟩ := chunk_read_start_take (k := 0) h1 (Nat.zero_le _)
    by_cases ht : is_tile_type c.type = true
    · simp only [ht, if_true]
      cases h2 : read_tile buf c cur1 with
      | error e => simp
      | ok q =>
      obtain ⟨f, c2, cur2⟩ := q
      simp only []
      obtain ⟨d2, s2, -, -⟩ := read_tile_take (k := 0) h2 (Nat.zero_le _)
      cases h3 : chunk_read_finish buf c2 cur2 with
      | error e => simp
      | ok cur3 =>
      simp only []
      obtain ⟨d3, s3, -, -⟩ := chunk_read_finish_take (k := 0) h3 (Nat.zero_le _)
      exact ih cur3 _ _ (by omega) (by omega)
    · simp only [ht]
      cases h3 : chunk_read_finish buf c cur1 with
      | error e => simp
      | ok cur3 =>
      simp only []
      obtain ⟨d3, s3, -, -⟩ := chunk_read_finish_take (k := 0) h3 (Nat.zero_le _)
      exact ih cur3 _ _ (by omega) (by omega)

theorem eph_load_fuel_enough {U : Type} (log2_half : Log2Half)
    (uncompress : Uncompress) (callback : Callback U)
    (data : List Byte) (data_size : Int) (user : U) :
    (eph_load log2_half uncompress data data_size user callback).outcome ≠ .outOfFuel := by
  unfold eph_load
  split
  · simp
  · cases memcpy data 0 4 with
    | none => simp
    | some magic =>
      simp only []
      split
      · simp
      · cases READ_int32 data ⟨4, data_size - 4⟩ with
        | error e => simp
        | ok r =>
          obtain ⟨version, cur⟩ := r
          simp only []
          split
          · simp
          · exact eph_loop_fuel_enough log2_half uncompress callback data _ cur user [] (by omega)
              (by omega)

/-! ## Lemmas on the iterations of the loop -/

theorem chunk_next_progress {buf : List Byte} {cur cur3 : Cursor}
    (h : chunk_next buf cur = some cur3) :
    cur.data + 12 ≤ cur3.data ∧ cur3.data + cur3.data_size = cur.data + cur.data_size := by
  unfold chunk_next at h
  cases h1 : chunk_read_start buf cur with
  | error e => simp [h1] at h
  | ok r =>
  cases r with
  | none => simp [h1] at h
  | some p =>
  obtain ⟨c, cur1⟩ := p
  simp only [h1] at h
  obtain ⟨d1, s1, -, -⟩ := chunk_read_start_take (k := 0) h1 (Nat.zero_le _)
  by_cases ht : is_tile_type c.type = true
  · simp only [ht, if_true] at h
    cases h2 : read_tile buf c cur1 with
    | error e => simp [h2] at h
    | ok q =>
    obtain ⟨f, c2, cur2⟩ := q
    simp only [h2] at h
    obtain ⟨d2, s2, -, -⟩ := read_tile_take (k := 0) h2 (Nat.zero_le _)
    cases h3 : chunk_read_finish buf c2 cur2 with
    | error e => simp [h3] at h
    | ok cur4 =>
    simp only [h3, Option.some.injEq] at h
    subst h
    obtain ⟨d3, s3, -, -⟩ := chunk_read_finish_take (k := 0) h3 (Nat.zero_le _)
    exact ⟨by omega, by omega⟩
  · simp only [ht] at h
    cases h3 : chunk_read_finish buf c cur1 with
    | error e => simp [h3] at h
    | ok cur4 =>
    simp only [h3, Bool.false_eq_true, if_false, Option.some.injEq] at h
    subst h
    obtain ⟨d3, s3, -, -⟩ := chunk_read_finish_take (k := 0) h3 (Nat.zero_le _)
    exact ⟨by omega, by omega⟩

theorem eph_loop_iteration {U : Type} (log2_half : Log2Half)
    (uncompress : Uncompress) (callback : Callback U)
    (buf : List Byte) (fuel : Nat) (cur : Cursor) (user : U) (calls : List SinkCall) :
    (∃ cur3 user2 calls2, chunk_next buf cur = some cur3 ∧
        eph_loop log2_half uncompress callback buf (fuel + 1) cur user calls =
          eph_loop log2_half uncompress callback buf fuel cur3 user2 calls2) ∨
      (chunk_next buf cur = none ∧
        ((eph_loop log2_half uncompress callback buf (fuel + 1) cur user calls).outcome = .returned 0 ∨
          ∃ e, (eph_loop log2_half uncompress callback buf (fuel + 1) cur user calls).outcome =
            .aborted e)) := by
  rw [eph_loop]
  unfold chunk_next
  cases h1 : chunk_read_start buf cur with
  | error e => right; exact ⟨rfl, Or.inr ⟨e, rfl⟩⟩
  | ok r =>
  cases r with
  | none => right; exact ⟨rfl, Or.inl rfl⟩
  | some p =>
  obtain ⟨c, cur1⟩ := p
  simp only []
  by_cases ht : is_tile_type c.type = true
  · simp only [ht, if_true]
    cases h2 : read_tile buf c cur1 with
    | error e => right; exact ⟨rfl, Or.inr ⟨e, rfl⟩⟩
    | ok q =>
    obtain ⟨f, c2, cur2⟩ := q
    simp only []
    cases h3 : chunk_read_finish buf c2 cur2 with
    | error e => right; exact ⟨rfl, Or.inr ⟨e, rfl⟩⟩
    | ok cur3 => left; exact ⟨cur3, _, _, rfl, rfl⟩
  · simp only [ht]
    cases h3 : chunk_read_finish buf c cur1 with
    | error e => right; exact ⟨rfl, Or.inr ⟨e, rfl⟩⟩
    | ok cur3 => left; exact ⟨cur3, _, _, rfl, rfl⟩

theorem eph_loop_outcome {U : Type} (log2_half : Log2Half)
    (uncompress : Uncompress) (callback : Callback U)
    (buf : List Byte) :
    ∀ (fuel : Nat) (cur : Cursor) (user : U) (calls : List SinkCall),
      (eph_loop log2_half uncompress callback buf fuel cur user calls).outcome = .returned 0 ∨
        (∃ e, (eph_loop log2_half uncompress callback buf fuel cur user calls).outcome = .aborted e) ∨
        (eph_loop log2_half uncompress callback buf fuel cur user calls).outcome = .outOfFuel := by
  intro fuel
  induction fuel with
  | zero => intro cur user calls; right; right; rfl
  | succ fuel ih =>
    intro cur user calls
    rcases eph_loop_iteration log2_half uncompress callback buf fuel cur user calls with
      ⟨cur3, user2, calls2, -, h⟩ | ⟨-, h | h⟩
    · rw [h]; exact ih _ _ _
    · left; exact h
    · right; left; exact h

theorem eph_load_outcome {U : Type} (log2_half : Log2Half)
    (uncompress : Uncompress) (callback : Callback U)
    (data : List Byte) (data_size : Int) (user : U) :
    (eph_load log2_half uncompress data data_size user callback).outcome = .returned 0 ∨
      ∃ e, (eph_load log2_half uncompress data data_size user callback).outcome = .aborted e := by
  have hf := eph_load_fuel_enough log2_half uncompress callback data data_size user
  have key : (eph_load log2_half uncompress data data_size user callback).outcome = .returned 0 ∨
      (∃ e, (eph_load log2_half uncompress data data_size user callback).outcome = .aborted e) ∨
      (eph_load log2_half uncompress data data_size user callback).outcome = .outOfFuel := by
    unfold eph_load
    split
    · right; left; exact ⟨_, rfl⟩
    · cases memcpy data 0 4 with
      | none => right; left; exact ⟨_, rfl⟩
      | some magic =>
        simp only []
        split
        · right; left; exact ⟨_, rfl⟩
        · cases READ_int32 data ⟨4, data_size - 4⟩ with
          | error e => right; left; exact ⟨_, rfl⟩
          | ok r =>
            obtain ⟨version, cur⟩ := r
            simp only []
            split
            · right; left; exact ⟨_, rfl⟩
            · exact eph_loop_outcome log2_half uncompress callback data _ cur user []
  rcases key with h | h | h
  · exact Or.inl h
  · exact Or.inr h
  · exact absurd h hf

/-! ## Lemmas on the chunks that the loop gets through -/

theorem toInt32_bounds (x : Int) : -2 ^ 31 ≤ toInt32 x ∧ toInt32 x < 2 ^ 31 := by
  unfold toInt32; omega

theorem chunk_read_chunk {buf : List Byte} {c c1 : chunk_t} {cur cur1 : Cursor} {n : Int}
    {bs : List Byte} (h : chunk_read buf c cur n = .ok (bs, c1, cur1)) :
    c1.type = c.type ∧ c1.length = c.length ∧ c1.pos = toInt32 (c.pos + n) ∧
      c1.pos ≤ c.length := by
  unfold chunk_read at h
  simp only [] at h
  split at h
  · exact absurd h (by simp)
  · rename_i hp
    split at h
    · exact absurd h (by simp)
    · cases hm : memcpy buf cur.data n with
      | none => simp [hm] at h
      | some bs2 =>
        simp only [hm, Except.ok.injEq, Prod.mk.injEq] at h
        obtain ⟨-, rfl, -⟩ := h
        exact ⟨rfl, rfl, rfl, by simp only []; omega⟩

theorem CHUNK_READ_int32_chunk {buf : List Byte} {c c1 : chunk_t} {cur cur1 : Cursor}
    {v : Int} (h : CHUNK_READ_int32 buf c cur = .ok (v, c1, cur1)) :
    c1.type = c.type ∧ c1.length = c.length ∧ c1.pos = toInt32 (c.pos + 4) ∧
      c1.pos ≤ c.length ∧ -2 ^ 31 ≤ v ∧ v < 2 ^ 31 := by
  unfold CHUNK_READ_int32 at h
  cases hr : chunk_read buf c cur 4 with
  | error e => simp [hr] at h
  | ok r =>
    obtain ⟨bs, c2, cur2⟩ := r
    simp only [hr, Except.ok.injEq, Prod.mk.injEq] at h
    obtain ⟨rfl, rfl, rfl⟩ := h
    obtain ⟨a1, a2, a3, a4⟩ := chunk_read_chunk hr
    exact ⟨a1, a2, a3, a4, (toInt32_bounds _).1, (toInt32_bounds _).2⟩

theorem CHUNK_READ_uint64_chunk {buf : List Byte} {c c1 : chunk_t} {cur cur1 : Cursor}
    {v : Nat} (h : CHUNK_READ_uint64 buf c cur = .ok (v, c1, cur1)) :
    c1.type = c.type ∧ c1.length = c.length ∧ c1.pos = toInt32 (c.pos + 8) ∧
      c1.pos ≤ c.length := by
  unfold CHUNK_READ_uint64 at h
  cases hr : chunk_read buf c cur 8 with
  | error e => simp [hr] at h
  | ok r =>
    obtain ⟨bs, c2, cur2⟩ := r
    simp only [hr, Except.ok.injEq, Prod.mk.injEq] at h
    obtain ⟨rfl, rfl, rfl⟩ := h
    exact chunk_read_chunk hr

theorem read_tile_chunk {buf : List Byte} {c c5 : chunk_t} {cur cur5 : Cursor}
    {f : TileFields} (h : read_tile buf c cur = .ok (f, c5, cur5)) (hpos : c.pos = 0) :
    0 ≤ f.comp_size ∧ f.comp_size < 2 ^ 31 ∧ c5.type = c.type ∧ c5.length = c.length ∧
      20 ≤ c.length ∧ c5.pos = toInt32 (20 + f.comp_size) ∧
      cur5.data = cur.data + 20 + f.comp_size ∧
      cur5.data + cur5.data_size = cur.data + cur.data_size := by
  unfold read_tile at h
  cases h1 : CHUNK_READ_int32 buf c cur with
  | error e => simp [h1] at h
  | ok r1 =>
  obtain ⟨v1, c1, cur1⟩ := r1
  simp only [h1] at h
  cases h2 : CHUNK_READ_uint64 buf c1 cur1 with
  | error e => simp [h2] at h
  | ok r2 =>
  obtain ⟨v2, c2, cur2⟩ := r2
  simp only [h2] at h
  cases h3 : CHUNK_READ_int32 buf c2 cur2 with
  | error e => simp [h3] at h
  | ok r3 =>
  obtain ⟨v3, c3, cur3⟩ := r3
  simp only [h3] at h
  cases h4 : CHUNK_READ_int32 buf c3 cur3 with
  | error e => simp [h4] at h
  | ok r4 =>
  obtain ⟨v4, c4, cur4⟩ := r4
  simp only [h4] at h
  cases h5 : chunk_read buf c4 cur4 v4 with
  | error e => simp [h5] at h
  | ok r5 =>
  obtain ⟨bs, c6, cur6⟩ := r5
  simp only [h5, Except.ok.injEq, Prod.mk.injEq] at h
  obtain ⟨rfl, rfl, rfl⟩ := h
  obtain ⟨t1, l1, p1, b1, -, -⟩ := CHUNK_READ_int32_chunk h1
  obtain ⟨t2, l2, p2, b2⟩ := CHUNK_READ_uint64_chunk h2
  obtain ⟨t3, l3, p3, b3, -, -⟩ := CHUNK_READ_int32_chunk h3
  obtain ⟨t4, l4, p4, b4, v4lo, v4hi⟩ := CHUNK_READ_int32_chunk h4
  obtain ⟨t5, l5, p5, b5⟩ := chunk_read_chunk h5
  obtain ⟨d1, s1, -, -⟩ := CHUNK_READ_int32_take (k := 0) h1 (Nat.zero_le _)
  obtain ⟨d2, s2, -, -⟩ := CHUNK_READ_uint64_take (k := 0) h2 (Nat.zero_le _)
  obtain ⟨d3, s3, -, -⟩ := CHUNK_READ_int32_take (k := 0) h3 (Nat.zero_le _)
  obtain ⟨d4, s4, -, -⟩ := CHUNK_READ_int32_take (k := 0) h4 (Nat.zero_le _)
  obtain ⟨n5, d5, s5, -, -⟩ := chunk_read_take (k := 0) h5 (Nat.zero_le _)
  have q1 : c1.pos = 4 := by rw [p1, hpos]; decide
  have q2 : c2.pos = 12 := by rw [p2, q1]; decide
  have q3 : c3.pos = 16 := by rw [p3, q2]; decide
  have q4 : c4.pos = 20 := by rw [p4, q3]; decide
  simp only []
  refine ⟨n5, v4hi, ?_, ?_, ?_, ?_, by omega, by omega⟩
  · rw [t5, t4, t3, t2, t1]
  · rw [l5, l4, l3, l2, l1]
  · rw [q4, l3, l2, l1] at b4; exact b4
  · rw [p5, q4]

theorem chunk_read_finish_pos {buf : List Byte} {c : chunk_t} {cur cur1 : Cursor}
    (h : chunk_read_finish buf c cur = .ok cur1) : c.pos = c.length := by
  unfold chunk_read_finish at h
  split at h
  · exact absurd h (by simp)
  · rename_i hp
    simpa using hp

theorem chunk_read_start_chunk {buf : List Byte} {c : chunk_t} {cur cur1 : Cursor}
    (h : chunk_read_start buf cur = .ok (some (c, cur1))) : c.pos = 0 := by
  unfold chunk_read_start at h
  split at h
  · exact absurd h (by simp)
  · split at h
    · exact absurd h (by simp)
    · cases hm : memcpy buf cur.data 4 with
      | none => simp [hm] at h
      | some ty =>
        simp only [hm] at h
        cases hr : READ_int32 buf ⟨cur.data + 4, cur.data_size - 4⟩ with
        | error e => simp [hr] at h
        | ok r =>
          obtain ⟨len, cur2⟩ := r
          simp only [hr, Except.ok.injEq, Option.some.injEq, Prod.mk.injEq] at h
          obtain ⟨rfl, -⟩ := h
          rfl

theorem chunk_step_closed {buf : List Byte} {cur cur3 : Cursor} {c : chunk_t}
    {fo : Option TileFields} (h : chunk_step buf cur = some (c, fo, cur3)) :
    chunk_closed (c, fo) ∧ cur.data_size = 12 + c.length + cur3.data_size := by
  unfold chunk_step at h
  cases h1 : chunk_read_start buf cur with
  | error e => simp [h1] at h
  | ok r =>
  cases r with
  | none => simp [h1] at h
  | some p =>
  obtain ⟨c0, cur1⟩ := p
  simp only [h1] at h
  obtain ⟨d1, s1, -, -⟩ := chunk_read_start_take (k := 0) h1 (Nat.zero_le _)
  have hpos := chunk_read_start_chunk h1
  by_cases ht : is_tile_type c0.type = true
  · simp only [ht, if_true] at h
    cases h2 : read_tile buf c0 cur1 with
    | error e => simp [h2] at h
    | ok q =>
    obtain ⟨f, c2, cur2⟩ := q
    simp only [h2] at h
    obtain ⟨n0, nhi, ty, le, l20, p5, d2, s2⟩ := read_tile_chunk h2 hpos
    cases h3 : chunk_read_finish buf c2 cur2 with
    | error e => simp [h3] at h
    | ok cur4 =>
    simp only [h3, Option.some.injEq, Prod.mk.injEq] at h
    obtain ⟨rfl, rfl, rfl⟩ := h
    obtain ⟨d3, s3, -, -⟩ := chunk_read_finish_take (k := 0) h3 (Nat.zero_le _)
    have hfin := chunk_read_finish_pos h3
    have hlen : c0.length = 20 + f.comp_size := by
      rw [p5, le] at hfin
      unfold toInt32 at hfin
      omega
    refine ⟨⟨fun _ => ⟨f, rfl, n0, hlen⟩, fun hf => ?_⟩, by omega⟩
    simp only [] at hf
    rw [ht] at hf
    exact absurd hf (by simp)
  · simp only [ht] at h
    cases h3 : chunk_read_finish buf c0 cur1 with
    | error e => simp [h3] at h
    | ok cur4 =>
    simp only [h3, Bool.false_eq_true, if_false, Option.some.injEq, Prod.mk.injEq] at h
    obtain ⟨rfl, rfl, rfl⟩ := h
    obtain ⟨d3, s3, -, -⟩ := chunk_read_finish_take (k := 0) h3 (Nat.zero_le _)
    have hfin := chunk_read_finish_pos h3
    refine ⟨⟨fun ht2 => absurd ht2 ht, fun _ => ⟨rfl, ?_⟩⟩, by omega⟩
    show c0.length = 0
    omega

theorem eph_loop_chunks_read {U : Type} (log2_half : Log2Half)
    (uncompress : Uncompress) (callback : Callback U)
    (buf : List Byte) :
    ∀ (fuel : Nat) (cur : Cursor) (user : U) (calls : List SinkCall),
      (eph_loop log2_half uncompress callback buf fuel cur user calls).outcome = .returned 0 →
      (∀ p ∈ chunks_read buf fuel cur, chunk_closed p) ∧
        cur.data_size = ((chunks_read buf fuel cur).map fun p => 12 + p.1.length).sum ∧
        (eph_loop log2_half uncompress callback buf fuel cur user calls).calls =
          calls ++ (chunks_read buf fuel cur).filterMap
            fun p => p.2.map (tile_sink_call log2_half uncompress p.1.type) := by
  intro fuel
  induction fuel with
  | zero =>
    intro cur user calls hok
    simp [eph_loop] at hok
  | succ fuel ih =>
    intro cur user calls hok
    rw [eph_loop] at hok ⊢
    rw [chunks_read]
    unfold chunk_step
    cases h1 : chunk_read_start buf cur with
    | error e => simp [h1] at hok
    | ok r =>
    cases r with
    | none =>
      have := chunk_read_start_none h1
      simp [this]
    | some p =>
    obtain ⟨c, cur1⟩ := p
    simp only [h1] at hok ⊢
    by_cases ht : is_tile_type c.type = true
    · simp only [ht, if_true] at hok ⊢
      cases h2 : read_tile buf c cur1 with
      | error e => simp [h2] at hok
      | ok q =>
      obtain ⟨f, c2, cur2⟩ := q
      simp only [h2] at hok ⊢
      cases h3 : chunk_read_finish buf c2 cur2 with
      | error e => simp [h3] at hok
      | ok cur3 =>
      simp only [h3] at hok ⊢
      have hstep : chunk_step buf cur = some (c, some f, cur3) := by
        simp [chunk_step, h1, ht, h2, h3]
      obtain ⟨hcl, hsz⟩ := chunk_step_closed hstep
      obtain ⟨i1, i2, i3⟩ := ih cur3 _ _ hok
      refine ⟨?_, ?_, ?_⟩
      · intro p hp
        rcases List.mem_cons.1 hp with rfl | hp
        · exact hcl
        · exact i1 p hp
      · simp only [List.map_cons, List.sum_cons]
        omega
      · rw [i3]
        simp
    · simp only [ht, Bool.false_eq_true, if_false] at hok ⊢
      cases h3 : chunk_read_finish buf c cur1 with
      | error e => simp [h3] at hok
      | ok cur3 =>
      simp only [h3] at hok ⊢
      have hstep : chunk_step buf cur = some (c, none, cur3) := by
        simp [chunk_step, h1, ht, h3]
      obtain ⟨hcl, hsz⟩ := chunk_step_closed hstep
      obtain ⟨i1, i2, i3⟩ := ih cur3 _ _ hok
      refine ⟨?_, ?_, ?_⟩
      · intro p hp
        rcases List.mem_cons.1 hp with rfl | hp
        · exact hcl
        · exact i1 p hp
      · simp only [List.map_cons, List.sum_cons]
        omega
      · rw [i3]
        simp

/-! ## Lemmas on buffers that hold the same bytes -/

theorem Agree_mono {buf1 buf2 : List Byte} {lo hi lo2 hi2 : Int}
    (h : Agree buf1 buf2 lo hi) (h1 : lo ≤ lo2) (h2 : hi2 ≤ hi) : Agree buf1 buf2 lo2 hi2 :=
  fun i a b => h i (by omega) (by omega)

theorem memcpy_congr {buf1 buf2 : List Byte} {off n : Int}
    (hlen : buf1.length = buf2.length) (h : Agree buf1 buf2 off (off + n)) :
    memcpy buf1 off n = memcpy buf2 off n := by
  unfold memcpy
  rw [hlen]
  by_cases g : 0 ≤ off ∧ 0 ≤ n ∧ off + n ≤ (buf2.length : Int)
  · rw [if_pos g, if_pos g]
    congr 1
    apply List.ext_getElem?
    intro j
    simp only [List.getElem?_take, List.getElem?_drop]
    by_cases hj : j < n.toNat
    · rw [if_pos hj, if_pos hj]
      exact h (off.toNat + j) (by omega) (by omega)
    · rw [if_neg hj, if_neg hj]
  · rw [if_neg g, if_neg g]

theorem Agree_beyond {buf1 buf2 : List Byte} {lo hi : Int} (hlen : buf1.length = buf2.length)
    (h : Agree buf1 buf2 lo hi) (hL : (buf1.length : Int) ≤ hi) (hi2 : Int) :
    Agree buf1 buf2 lo hi2 := by
  intro i a _
  by_cases g : i < buf1.length
  · exact h i a (by omega)
  · rw [List.getElem?_eq_none (by omega), List.getElem?_eq_none (by omega)]

theorem READ_int32_congr {buf1 buf2 : List Byte} (cur : Cursor)
    (hlen : buf1.length = buf2.length) (h : Agree buf1 buf2 cur.data (cur.data + 4)) :
    READ_int32 buf1 cur = READ_int32 buf2 cur := by
  unfold READ_int32
  rw [memcpy_congr hlen h]

theorem chunk_read_congr {buf1 buf2 : List Byte} (c : chunk_t) (cur : Cursor) (n : Int)
    (hlen : buf1.length = buf2.length) (h : Agree buf1 buf2 cur.data (cur.data + n)) :
    chunk_read buf1 c cur n = chunk_read buf2 c cur n := by
  unfold chunk_read
  rw [memcpy_congr hlen h]

theorem chunk_read_start_congr {buf1 buf2 : List Byte} {cur : Cursor}
    (hlen : buf1.length = buf2.length) (h : Agree buf1 buf2 cur.data (cur.data + 8)) :
    chunk_read_start buf1 cur = chunk_read_start buf2 cur := by
  unfold chunk_read_start
  rw [memcpy_congr hlen (Agree_mono h (le_refl _) (by omega)),
    READ_int32_congr ⟨cur.data + 4, cur.data_size - 4⟩ hlen
      (Agree_mono h (by simp only []; omega) (by simp only []; omega))]

theorem chunk_read_finish_congr {buf1 buf2 : List Byte} (c : chunk_t) (cur : Cursor)
    (hlen : buf1.length = buf2.length) :
    chunk_read_finish buf1 c cur = chunk_read_finish buf2 c cur := by
  unfold chunk_read_finish READ_int32 memcpy
  rw [hlen]
  by_cases hp : c.pos ≠ c.length
  · rw [if_pos hp, if_pos hp]
  · rw [if_neg hp, if_neg hp]
    by_cases hs : cur.data_size < 4
    · rw [if_pos hs, if_pos hs]
    · rw [if_neg hs, if_neg hs]
      by_cases g : 0 ≤ cur.data ∧ (0 : Int) ≤ 4 ∧ cur.data + 4 ≤ (buf2.length : Int)
      · rw [if_pos g, if_pos g]
      · rw [if_neg g, if_neg g]

theorem chunk_read_bound {buf : List Byte} {c c1 : chunk_t} {cur cur1 : Cursor} {n : Int}
    {bs : List Byte} (h : chunk_read buf c cur n = .ok (bs, c1, cur1)) :
    cur.data ≤ cur1.data ∧ cur1.data = cur.data + n ∧ cur1.data ≤ buf.length := by
  unfold chunk_read at h
  simp only [] at h
  split at h
  · exact absurd h (by simp)
  · split at h
    · exact absurd h (by simp)
    · cases hm : memcpy buf cur.data n with
      | none => simp [hm] at h
      | some bs2 =>
        simp only [hm, Except.ok.injEq, Prod.mk.injEq] at h
        obtain ⟨-, -, rfl⟩ := h
        obtain ⟨a, b, c⟩ := memcpy_ok hm
        exact ⟨by simp only []; omega, rfl, by simp only []; omega⟩

theorem read_tile_congr {buf1 buf2 : List Byte} (c : chunk_t) (cur : Cursor) (hi : Int)
    (hlen : buf1.length = buf2.length) (hag : Agree buf1 buf2 cur.data hi)
    (hhi : (buf1.length : Int) ≤ hi ∨
      ∃ f c5 cur5, read_tile buf1 c cur = .ok (f, c5, cur5) ∧ cur5.data ≤ hi) :
    read_tile buf1 c cur = read_tile buf2 c cur := by
  have cg : ∀ (c2 : chunk_t) (cur2 : Cursor) (n : Int), cur.data ≤ cur2.data →
      ((buf1.length : Int) ≤ hi ∨ cur2.data + n ≤ hi) →
      chunk_read buf2 c2 cur2 n = chunk_read buf1 c2 cur2 n := by
    intro c2 cur2 n h1 h2
    symm
    apply chunk_read_congr _ _ _ hlen
    rcases h2 with h2 | h2
    · exact Agree_beyond hlen (Agree_mono hag h1 (le_refl _)) h2 _
    · exact Agree_mono hag h1 h2
  have hfail : (∀ f c5 cur5, read_tile buf1 c cur ≠ .ok (f, c5, cur5)) →
      (buf1.length : Int) ≤ hi := by
    intro hne
    rcases hhi with h | ⟨f, c5, cur5, hs, -⟩
    · exact h
    · exact absurd hs (hne f c5 cur5)
  unfold read_tile CHUNK_READ_int32 CHUNK_READ_uint64 at hfail hhi ⊢
  cases h1 : chunk_read buf1 c cur 4 with
  | error e =>
    have hL := hfail (by simp [h1])
    rw [cg c cur 4 (le_refl _) (Or.inl hL), h1]
  | ok r1 =>
  obtain ⟨b1, c1, cur1⟩ := r1
  obtain ⟨m1, d1, -⟩ := chunk_read_bound h1
  simp only [h1] at hfail hhi ⊢
  cases h2 : chunk_read buf1 c1 cur1 8 with
  | error e =>
    have hL := hfail (by simp [h2])
    rw [cg c cur 4 (le_refl _) (Or.inl hL), h1]
    simp only []
    rw [cg c1 cur1 8 m1 (Or.inl hL), h2]
  | ok r2 =>
  obtain ⟨b2, c2, cur2⟩ := r2
  obtain ⟨m2, d2, -⟩ := chunk_read_bound h2
  simp only [h2] at hfail hhi ⊢
  cases h3 : chunk_read buf1 c2 cur2 4 with
  | error e =>
    have hL := hfail (by simp [h3])
    rw [cg c cur 4 (le_refl _) (Or.inl hL), h1]
    simp only []
    rw [cg c1 cur1 8 m1 (Or.inl hL), h2]
    simp only []
    rw [cg c2 cur2 4 (by omega) (Or.inl hL), h3]
  | ok r3 =>
  obtain ⟨b3, c3, cur3⟩ := r3
  obtain ⟨m3, d3, -⟩ := chunk_read_bound h3
  simp only [h3] at hfail hhi ⊢
  cases h4 : chunk_read buf1 c3 cur3 4 with
  | error e =>
    have hL := hfail (by simp [h4])
    rw [cg c cur 4 (le_refl _) (Or.inl hL), h1]
    simp only []
    rw [cg c1 cur1 8 m1 (Or.inl hL), h2]
    simp only []
    rw [cg c2 cur2 4 (by omega) (Or.inl hL), h3]
    simp only []
    rw [cg c3 cur3 4 (by omega) (Or.inl hL), h4]
  | ok r4 =>
  obtain ⟨b4, c4, cur4⟩ := r4
  obtain ⟨m4, d4, -⟩ := chunk_read_bound h4
  simp only [h4] at hfail hhi ⊢
  cases h5 : chunk_read buf1 c4 cur4 (int32_of_bytes b4) with
  | error e =>
    have hL := hfail (by simp [h5])
    rw [cg c cur 4 (le_refl _) (Or.inl hL), h1]
    simp only []
    rw [cg c1 cur1 8 m1 (Or.inl hL), h2]
    simp only []
    rw [cg c2 cur2 4 (by omega) (Or.inl hL), h3]
    simp only []
    rw [cg c3 cur3 4 (by omega) (Or.inl hL), h4]
    simp only []
    rw [cg c4 cur4 _ (by omega) (Or.inl hL), h5]
  | ok r5 =>
  obtain ⟨b5, c5, cur5⟩ := r5
  obtain ⟨m5, d5, l5⟩ := chunk_read_bound h5
  simp only [h5] at hhi
  have hb : (buf1.length : Int) ≤ hi ∨ cur5.data ≤ hi := by
    rcases hhi with h | ⟨f, c6, cur6, hs, hle⟩
    · exact Or.inl h
    · simp only [Except.ok.injEq, Prod.mk.injEq] at hs
      obtain ⟨-, -, rfl⟩ := hs
      exact Or.inr hle
  have g : ∀ e : Int, e ≤ cur5.data → ((buf1.length : Int) ≤ hi ∨ e ≤ hi) := by
    intro e he
    rcases hb with h | h
    · exact Or.inl h
    · exact Or.inr (by omega)
  rw [cg c cur 4 (le_refl _) (g _ (by omega)), h1]
  simp only []
  rw [cg c1 cur1 8 m1 (g _ (by omega)), h2]
  simp only []
  rw [cg c2 cur2 4 (by omega) (g _ (by omega)), h3]
  simp only []
  rw [cg c3 cur3 4 (by omega) (g _ (by omega)), h4]
  simp only []
  rw [cg c4 cur4 _ (by omega) (g _ (by omega)), h5]

theorem mem_crc_offsets_of_cons {x e : Int} {es : List Int} :
    x ∈ crc_offsets_of (e :: es) ↔
      x = e - 4 ∨ x = e - 3 ∨ x = e - 2 ∨ x = e - 1 ∨ x ∈ crc_offsets_of es := by
  simp [crc_offsets_of]

theorem crc_offsets_lower (buf : List Byte) :
    ∀ (fuel : Nat) (cur : Cursor), ∀ x ∈ crc_offsets_of (chunk_starts buf fuel cur),
      cur.data - 4 ≤ x := by
  intro fuel
  induction fuel with
  | zero => intro cur x hx; simp [chunk_starts, crc_offsets_of] at hx
  | succ fuel ih =>
    intro cur x hx
    rw [chunk_starts, mem_crc_offsets_of_cons] at hx
    rcases hx with h | h | h | h | h
    · omega
    · omega
    · omega
    · omega
    · cases hn : chunk_next buf cur with
      | none => simp [hn, crc_offsets_of] at h
      | some cur3 =>
        simp only [hn] at h
        have := ih cur3 x h
        have := (chunk_next_progress hn).1
        omega

theorem crc_offsets_tail (buf : List Byte) (fuel : Nat) (cur : Cursor) :
    (chunk_starts buf (fuel + 1) cur).tail =
      match chunk_next buf cur with
      | some cur3 => chunk_starts buf fuel cur3
      | none => [] := by
  cases h : chunk_next buf cur <;> simp [chunk_starts, h]

theorem eph_loop_crc {U : Type} (log2_half : Log2Half)
    (uncompress : Uncompress) (callback : Callback U)
    (buf1 buf2 : List Byte) (hlen : buf1.length = buf2.length) :
    ∀ (fuel : Nat) (cur : Cursor) (user : U) (calls : List SinkCall),
      (∀ i : Nat, cur.data ≤ (i : Int) → buf1[i]? ≠ buf2[i]? →
        (i : Int) ∈ crc_offsets_of (chunk_starts buf1 fuel cur).tail) →
      eph_loop log2_half uncompress callback buf1 fuel cur user calls =
        eph_loop log2_half uncompress callback buf2 fuel cur user calls := by
  intro fuel
  induction fuel with
  | zero => intro cur user calls _; rfl
  | succ fuel ih =>
    intro cur user calls hd
    rw [crc_offsets_tail] at hd
    -- agreement up to the CRC of this chunk, or everywhere when the iteration ends the run
    have hag : ∀ hi : Int, (chunk_next buf1 cur = none ∨
        ∃ cur3, chunk_next buf1 cur = some cur3 ∧ hi ≤ cur3.data - 4) →
        Agree buf1 buf2 cur.data hi := by
      intro hi hc i h1 h2
      by_contra hne
      have hm := hd i h1 hne
      rcases hc with hn | ⟨cur3, hn, hle⟩
      · simp [hn, crc_offsets_of] at hm
      · simp only [hn] at hm
        have := crc_offsets_lower buf1 fuel cur3 _ hm
        omega
    rw [eph_loop, eph_loop]
    cases h1 : chunk_read_start buf1 cur with
    | error e =>
      have hn : chunk_next buf1 cur = none := by simp [chunk_next, h1]
      rw [← chunk_read_start_congr hlen (hag _ (Or.inl hn)), h1]
    | ok r =>
    cases r with
    | none =>
      have hn : chunk_next buf1 cur = none := by simp [chunk_next, h1]
      rw [← chunk_read_start_congr hlen (hag _ (Or.inl hn)), h1]
    | some p =>
    obtain ⟨c, cur1⟩ := p
    obtain ⟨d1, s1, -, -⟩ := chunk_read_start_take (k := 0) h1 (Nat.zero_le _)
    have hstart : chunk_read_start buf2 cur = .ok (some (c, cur1)) := by
      rw [← h1]
      symm
      apply chunk_read_start_congr hlen
      apply hag
      cases hn : chunk_next buf1 cur with
      | none => exact Or.inl rfl
      | some cur3 =>
        have := (chunk_next_progress hn).1
        exact Or.inr ⟨cur3, rfl, by omega⟩
    rw [hstart]
    simp only []
    by_cases ht : is_tile_type c.type = true
    · simp only [ht, if_true]
      have htile : read_tile buf2 c cur1 = read_tile buf1 c cur1 := by
        symm
        cases hn : chunk_next buf1 cur with
        | none =>
          refine read_tile_congr c cur1 (buf1.length : Int) hlen
            (Agree_mono (hag _ (Or.inl hn)) (by omega) (le_refl _)) (Or.inl (le_refl _))
        | some cur3 =>
          have hag3 := hag (cur3.data - 4) (Or.inr ⟨cur3, hn, le_refl _⟩)
          refine read_tile_congr c cur1 (cur3.data - 4) hlen
            (Agree_mono hag3 (by omega) (le_refl _)) (Or.inr ?_)
          unfold chunk_next at hn
          simp only [h1, ht, if_true] at hn
          cases h2 : read_tile buf1 c cur1 with
          | error e => simp [h2] at hn
          | ok q =>
            obtain ⟨f, c2, cur2⟩ := q
            simp only [h2] at hn
            cases h3 : chunk_read_finish buf1 c2 cur2 with
            | error e => simp [h3] at hn
            | ok cur4 =>
              simp only [h3, Option.some.injEq] at hn
              subst hn
              obtain ⟨d3, -, -, -⟩ := chunk_read_finish_take (k := 0) h3 (Nat.zero_le _)
              exact ⟨f, c2, cur2, rfl, by omega⟩
      rw [htile]
      cases h2 : read_tile buf1 c cur1 with
      | error e => rfl
      | ok q =>
      obtain ⟨f, c2, cur2⟩ := q
      simp only []
      rw [← chunk_read_finish_congr c2 cur2 hlen]
      cases h3 : chunk_read_finish buf1 c2 cur2 with
      | error e => rfl
      | ok cur3 =>
      simp only []
      have hn : chunk_next buf1 cur = some cur3 := by simp [chunk_next, h1, ht, h2, h3]
      apply ih
      intro i hi hne
      have hm := hd i (by have := (chunk_next_progress hn).1; omega) hne
      simp only [hn] at hm
      cases fuel with
      | zero => simp [chunk_starts, crc_offsets_of] at hm
      | succ fuel =>
        rw [chunk_starts, mem_crc_offsets_of_cons] at hm
        rw [chunk_starts, List.tail_cons]
        rcases hm with h | h | h | h | h
        · omega
        · omega
        · omega
        · omega
        · exact h
    · simp only [ht, Bool.false_eq_true, if_false]
      rw [← chunk_read_finish_congr c cur1 hlen]
      cases h3 : chunk_read_finish buf1 c cur1 with
      | error e => rfl
      | ok cur3 =>
      simp only []
      have hn : chunk_next buf1 cur = some cur3 := by simp [chunk_next, h1, ht, h3]
      apply ih
      intro i hi hne
      have hm := hd i (by have := (chunk_next_progress hn).1; omega) hne
      simp only [hn] at hm
      cases fuel with
      | zero => simp [chunk_starts, crc_offsets_of] at hm
      | succ fuel =>
        rw [chunk_starts, mem_crc_offsets_of_cons] at hm
        rw [chunk_starts, List.tail_cons]
        rcases hm with h | h | h | h | h
        · omega
        · omega
        · omega
        · omega
        · exact h

theorem crc_offsets_tail_lower (buf : List Byte) (fuel : Nat) (cur : Cursor) :
    ∀ x ∈ crc_offsets_of (chunk_starts buf fuel cur).tail, cur.data + 8 ≤ x := by
  intro x hx
  cases fuel with
  | zero => simp [chunk_starts, crc_offsets_of] at hx
  | succ fuel =>
    rw [crc_offsets_tail] at hx
    cases hn : chunk_next buf cur with
    | none => simp [hn, crc_offsets_of] at hx
    | some cur3 =>
      simp only [hn] at hx
      have := crc_offsets_lower buf fuel cur3 x hx
      have := (chunk_next_progress hn).1
      omega

/-! ## More on the nuniq decomposition -/

theorem nuniq_pix_of_le (nuniq order : Nat) (ho : order ≤ 14) (h1 : 4 * 4 ^ order ≤ nuniq)
    (h2 : nuniq - 4 * 4 ^ order < 2 ^ 31) :
    nuniq_pix nuniq order = ((nuniq - 4 * 4 ^ order : Nat) : Int) := by
  have hk : toInt32 (2 * (order : Int)) = 2 * order := toInt32_of_range (by omega) (by omega)
  have hm : ((2 * (order : Int)) % 32).toNat = 2 * order := by omega
  have h4 : (4 : Int) ^ order = 2 ^ (2 * order) := by rw [pow_mul]; norm_num
  have hle : (4 : Int) ^ order ≤ 4 ^ 14 := pow_le_pow_right₀ (by norm_num) ho
  have hpos : (0 : Int) < 4 ^ order := by positivity
  have hs : shl1 (toInt32 (2 * (order : Int))) = 4 ^ order := by
    rw [shl1, hk, hm, ← h4]
    exact toInt32_of_range (by omega) (by omega)
  have h5 : toInt32 (4 * (4 : Int) ^ order) = 4 * 4 ^ order :=
    toInt32_of_range (by omega) (by omega)
  have hc : ((4 * 4 ^ order : Nat) : Int) = 4 * (4 : Int) ^ order := by push_cast; rfl
  unfold nuniq_pix
  rw [hs, h5]
  have hsub : ((nuniq - 4 * 4 ^ order : Nat) : Int) = (nuniq : Int) - 4 * (4 : Int) ^ order := by
    rw [Nat.cast_sub h1, hc]
  rw [← hsub]
  exact toInt32_of_range (by omega) (by exact_mod_cast h2)

/-! ## The claims -/

/-- C1 (as amended): for every order from 0 to 14 and every pixel below
`4 * 4 ^ order`, the decomposition that `eph_load` applies to
`nuniq = 4 * 4 ^ order + pixel` gives back exactly `order` and `pixel`. -/
theorem nuniq_roundtrip (log2_half : Log2Half) (order pixel : Nat) (ho : order ≤ 14)
    (hp : pixel < 4 * 4 ^ order) :
    nuniq_order log2_half (4 * 4 ^ order + pixel) = order ∧
      nuniq_pix (4 * 4 ^ order + pixel) (nuniq_order log2_half (4 * 4 ^ order + pixel)) = pixel := by
  have h := nuniq_order_encode log2_half order pixel (by omega) hp
  exact ⟨h, by rw [h]; exact nuniq_pix_encode order pixel ho hp⟩

/-- Instance of C1 (as amended) at order 1 and pixel 2, the nuniq 18. -/
theorem nuniq_roundtrip_witness :
    nuniq_order sample_log2_half (4 * 4 ^ 1 + 2) = (1 : Nat) ∧
      nuniq_pix (4 * 4 ^ 1 + 2) (nuniq_order sample_log2_half (4 * 4 ^ 1 + 2)) = (2 : Nat) :=
  nuniq_roundtrip sample_log2_half 1 2 (by decide) (by decide)

/-- C1 (as stated) fails at order 15: the pixel `2 ^ 31` is below `4 * 4 ^ 15`
and the nuniq fits 64 bits, the order comes back as 15, but `pix` is an `int`
and comes back as `-2 ^ 31`. -/
theorem nuniq_roundtrip_fails_at_order_15 :
    (2 ^ 31 : Nat) < 4 * 4 ^ 15 ∧ 4 * 4 ^ 15 + 2 ^ 31 < 2 ^ 64 ∧
      nuniq_order sample_log2_half (4 * 4 ^ 15 + 2 ^ 31) = 15 ∧
      nuniq_pix (4 * 4 ^ 15 + 2 ^ 31) (nuniq_order sample_log2_half (4 * 4 ^ 15 + 2 ^ 31)) =
        -2 ^ 31 ∧
      nuniq_pix (4 * 4 ^ 15 + 2 ^ 31) (nuniq_order sample_log2_half (4 * 4 ^ 15 + 2 ^ 31)) ≠
        ((2 ^ 31 : Nat) : Int) := by
  have ho := nuniq_order_encode sample_log2_half 15 (2 ^ 31) (by norm_num) (by norm_num)
  refine ⟨by norm_num, by norm_num, ho, ?_, ?_⟩
  · rw [ho]; decide
  · rw [ho]; decide

/-- C2 (as amended): for every buffer that `eph_load` decodes with return value
0 and every length `k` below the length of the buffer that is not an offset
at which a chunk of the buffer starts, `eph_load` on the first `k` bytes stops
at a failed size check (`Truncated`), hence before any read outside these
bytes. -/
theorem eph_load_truncated {U : Type} (log2_half : Log2Half)
    (uncompress : Uncompress) (callback : Callback U)
    (user : U) (buf : List Byte) (k : Nat)
    (hok : (eph_load log2_half uncompress buf buf.length user callback).outcome = .returned 0)
    (hk : k < buf.length) (hns : (k : Int) ∉ file_chunk_starts buf) :
    (eph_load log2_half uncompress (buf.take k) (buf.take k).length user callback).outcome =
      .aborted .Truncated := by
  have hlk : ((buf.take k).length : Int) = k := by
    rw [List.length_take]; omega
  rw [hlk]
  unfold eph_load at hok
  split at hok
  · simp at hok
  rename_i h4
  cases hm : memcpy buf 0 4 with
  | none => simp [hm] at hok
  | some magic =>
  simp only [hm] at hok
  split at hok
  · simp at hok
  rename_i hmagic
  cases hr : READ_int32 buf ⟨4, (buf.length : Int) - 4⟩ with
  | error e => simp [hr] at hok
  | ok r =>
  obtain ⟨version, cur⟩ := r
  simp only [hr] at hok
  split at hok
  · simp at hok
  rename_i hversion
  obtain ⟨d1, s1, ok1, tr1⟩ := READ_int32_take (k := k) hr (by omega)
  simp only [] at d1 s1
  unfold eph_load
  by_cases g0 : (k : Int) < 4
  · rw [if_pos g0]
  rw [if_neg g0, memcpy_take hm (by omega) (by omega)]
  simp only [hmagic, if_false]
  have hc : (Cursor.cut k ⟨4, (buf.length : Int) - 4⟩) = ⟨4, (k : Int) - 4⟩ := rfl
  rw [hc] at ok1 tr1
  by_cases g1 : cur.data ≤ k
  swap
  · rw [tr1 (by omega)]
  rw [ok1 g1]
  simp only [hversion, if_false]
  have hfuel : cur.data_size.toNat + 1 = buf.length - 7 := by omega
  rw [hfuel] at hok
  have hcur : cur = ⟨8, (buf.length : Int) - 8⟩ := by
    cases cur; simp only [Cursor.mk.injEq] at *; omega
  unfold file_chunk_starts at hns
  rw [← hcur] at hns
  exact eph_loop_take log2_half uncompress callback buf k hk _ cur user [] _ (by omega) g1 hok hns
    (by simp only [Cursor.cut]; omega)

/-- Instance of C2 (as amended): the file made of the chunk `abcd` without data
and the sample tile chunk (55 bytes, chunks starting at 8 and 20), cut to 30
bytes. -/
theorem eph_load_truncated_witness :
    (eph_load sample_log2_half stored_uncompress ((file_bytes [sample_other, sample_tile]).take 30)
        ((file_bytes [sample_other, sample_tile]).take 30).length 0 counting_sink).outcome =
      .aborted .Truncated :=
  eph_load_truncated sample_log2_half stored_uncompress counting_sink 0 (file_bytes [sample_other, sample_tile])
    30 (by decide) (by decide) (by decide)

/-- C2 (as stated) fails on the 20-byte file made of the chunk `abcd` without
data, cut to its first 8 bytes: the file decodes with return value 0, and so
do its first 8 bytes, which end where the chunk starts. -/
theorem eph_load_truncated_at_chunk_start :
    (eph_load sample_log2_half stored_uncompress (file_bytes [sample_other]) (file_bytes [sample_other]).length 0
        counting_sink).outcome = .returned 0 ∧
      8 < (file_bytes [sample_other]).length ∧
      (eph_load sample_log2_half stored_uncompress ((file_bytes [sample_other]).take 8)
        ((file_bytes [sample_other]).take 8).length 0 counting_sink).outcome = .returned 0 := by
  decide

/-- C3, the failing input: the file made of the chunk `abcd` with one byte of
data and the sample tile chunk of nuniq 18, both well formed.  `eph_load` reads
the header of the chunk `abcd` (declared length 1, `pos` 0) and goes straight
to `chunk_read_finish`, whose assertion `pos == length` fails: the data byte is
not skipped, the sink is never called and the tile chunk is never reached.  The
same file without the data byte decodes with return value 0 and one sink call,
of order 1 and pixel 2. -/
theorem other_chunk_data_not_skipped :
    sample_other_data.wf ∧ sample_tile.wf ∧
      chunk_read_start (file_bytes [sample_other_data, sample_tile]) ⟨8, 48⟩ =
        .ok (some (⟨[97, 98, 99, 100], 1, 0⟩, ⟨16, 40⟩)) ∧
      chunk_read_finish (file_bytes [sample_other_data, sample_tile])
        ⟨[97, 98, 99, 100], 1, 0⟩ ⟨16, 40⟩ = .error .ChunkNotClosed ∧
      eph_load sample_log2_half stored_uncompress (file_bytes [sample_other_data, sample_tile])
          (file_bytes [sample_other_data, sample_tile]).length 0 counting_sink =
        ⟨.aborted .ChunkNotClosed, 0, []⟩ ∧
      eph_load sample_log2_half stored_uncompress (file_bytes [sample_other, sample_tile])
          (file_bytes [sample_other, sample_tile]).length 0 counting_sink =
        ⟨.returned 0, 1, [⟨[83, 84, 65, 82], 1, 1, 2, 3, [1, 2, 3]⟩]⟩ := by
  refine ⟨by decide, by decide, by decide, by decide, by decide, by decide!⟩

/-- C4 (as amended): `eph_load` drops the value that the sink returns.  For
every buffer and every sink, the run ends (by a return or an abort, not for
lack of fuel) and its outcome, its sink calls and the state behind `user` are
those of the run with the sink that changes the state in the same way and
always returns 0. -/
theorem sink_return_value_dropped {U : Type} (log2_half : Log2Half)
    (uncompress : Uncompress) (callback : Callback U)
    (data : List Byte) (data_size : Int) (user : U) :
    (eph_load log2_half uncompress data data_size user callback).outcome ≠ .outOfFuel ∧
      eph_load log2_half uncompress data data_size user callback =
        eph_load log2_half uncompress data data_size user (fun call u => (0, (callback call u).2)) := by
  refine ⟨eph_load_fuel_enough log2_half uncompress callback data data_size user, ?_⟩
  unfold eph_load
  simp only [eph_loop_sink_return log2_half uncompress callback (fun call u => (0, (callback call u).2))
    data (fun _ _ => rfl)]

/-- C4 (as stated) fails on the file made of two sample tile chunks with a sink
that returns 1 at every call: both tiles reach the sink and `eph_load`
returns 0. -/
theorem sink_failure_not_propagated :
    (∀ call n, (refusing_sink call n).1 ≠ 0) ∧
      eph_load sample_log2_half stored_uncompress (file_bytes [sample_tile, sample_tile])
          (file_bytes [sample_tile, sample_tile]).length 0 refusing_sink =
        ⟨.returned 0, 2,
          [⟨[83, 84, 65, 82], 1, 1, 2, 3, [1, 2, 3]⟩, ⟨[83, 84, 65, 82], 1, 1, 2, 3, [1, 2, 3]⟩]⟩ := by
  refine ⟨fun _ _ => by simp [refusing_sink], ?_⟩
  decide!

/-- C5 (as amended): `eph_load` does not look at what `uncompress` reports.
Where the buffer holds a well-formed tile chunk for which `uncompress` returns
an error code or leaves a size other than the declared one, the iteration
still calls the sink once, with the size and bytes that `uncompress` left, and
goes on with the next chunk; a file made of that chunk alone decodes with
return value 0 and that one call. -/
theorem tile_decompression_report_ignored {U : Type} (log2_half : Log2Half)
    (uncompress : Uncompress)
    (callback : Callback U) (buf : List Byte) (cur : Cursor) (type : List Byte) (t : Tile)
    (crc rest : List Byte) (fuel : Nat) (user : U) (calls : List SinkCall)
    (hat : At buf cur.data ((Chunk.tile type t crc).bytes ++ rest))
    (hwf : (Chunk.tile type t crc).wf)
    (hs : 32 + (t.comp.length : Int) ≤ cur.data_size)
    (hfail : (uncompress (toUInt64 t.size) t.comp).ret ≠ 0 ∨
      (uncompress (toUInt64 t.size) t.comp).destLen ≠ toUInt64 t.size) :
    eph_loop log2_half uncompress callback buf (fuel + 1) cur user calls =
        eph_loop log2_half uncompress callback buf fuel
          ⟨cur.data + (32 + t.comp.length), cur.data_size - (32 + t.comp.length)⟩
          (callback (tile_call log2_half uncompress type t) user).2
          (calls ++ [tile_call log2_half uncompress type t]) ∧
      eph_load log2_half uncompress (file_bytes [Chunk.tile type t crc])
          (file_bytes [Chunk.tile type t crc]).length user callback =
        ⟨.returned 0, (callback (tile_call log2_half uncompress type t) user).2,
          [tile_call log2_half uncompress type t]⟩ := by
  have _ := hfail
  refine ⟨(eph_loop_tile_step log2_half uncompress callback fuel user calls hat hwf hs).1, ?_⟩
  rw [eph_load_file log2_half uncompress callback user _ (by simpa using hwf) (by simp [Chunk.fully_read])]
  simp [chunks_calls, run_calls]

/-- Instance of C5 (as amended): the sample tile chunk at offset 8 of the file
made of it, with the service that always reports `Z_DATA_ERROR`. -/
theorem tile_decompression_report_ignored_witness :
    eph_loop sample_log2_half failing_uncompress counting_sink (file_bytes [sample_tile]) (0 + 1) ⟨8, 35⟩ 0 [] =
        eph_loop sample_log2_half failing_uncompress counting_sink (file_bytes [sample_tile]) 0
          ⟨8 + (32 + ([1, 2, 3] : List Byte).length), 35 - (32 + ([1, 2, 3] : List Byte).length)⟩
          (counting_sink (tile_call sample_log2_half failing_uncompress [83, 84, 65, 82] ⟨1, 18, 3, [1, 2, 3]⟩) 0).2
          ([] ++ [tile_call sample_log2_half failing_uncompress [83, 84, 65, 82] ⟨1, 18, 3, [1, 2, 3]⟩]) ∧
      eph_load sample_log2_half failing_uncompress (file_bytes [sample_tile]) (file_bytes [sample_tile]).length 0
          counting_sink =
        ⟨.returned 0,
          (counting_sink (tile_call sample_log2_half failing_uncompress [83, 84, 65, 82] ⟨1, 18, 3, [1, 2, 3]⟩) 0).2,
          [tile_call sample_log2_half failing_uncompress [83, 84, 65, 82] ⟨1, 18, 3, [1, 2, 3]⟩]⟩ :=
  tile_decompression_report_ignored sample_log2_half failing_uncompress counting_sink (file_bytes [sample_tile])
    ⟨8, 35⟩ [83, 84, 65, 82] ⟨1, 18, 3, [1, 2, 3]⟩ [0, 0, 0, 0] [] 0 0 [] (by decide) (by decide)
    (by decide) (by decide)

/-- C5 (as stated) fails on the file made of the sample tile chunk when
`uncompress` reports `Z_DATA_ERROR` and leaves size 0: `eph_load` returns 0
and the sink has been called for the tile. -/
theorem tile_decompression_error_not_reported :
    (failing_uncompress 3 [1, 2, 3]).ret ≠ 0 ∧ (failing_uncompress 3 [1, 2, 3]).destLen ≠ 3 ∧
      eph_load sample_log2_half failing_uncompress (file_bytes [sample_tile]) (file_bytes [sample_tile]).length 0
          counting_sink =
        ⟨.returned 0, 1, [⟨[83, 84, 65, 82], 1, 1, 2, 0, []⟩]⟩ := by
  decide!

/-- C6: a buffer of at least 4 bytes whose first 4 bytes are not `EPHE` makes
`eph_load` stop at the magic check, whatever follows: no chunk is read and
the sink is not called. -/
theorem eph_load_bad_magic {U : Type} (log2_half : Log2Half)
    (uncompress : Uncompress) (callback : Callback U)
    (user : U) (buf : List Byte) (hlen : 4 ≤ buf.length) (hm : buf.take 4 ≠ EPHE) :
    eph_load log2_half uncompress buf buf.length user callback = ⟨.aborted .BadMagic, user, []⟩ := by
  have h4 : ¬ ((buf.length : Int) < 4) := by omega
  have hc : memcpy buf 0 4 = some (buf.take 4) := by
    unfold memcpy
    rw [if_pos (by omega)]
    simp
  unfold eph_load
  rw [if_neg h4, hc]
  simp [hm]

/-- Instance of C6: the bytes `XPHE`, version 2 and the sample tile chunk. -/
theorem eph_load_bad_magic_witness :
    eph_load sample_log2_half stored_uncompress ([88, 80, 72, 69] ++ bytes_of_int32 2 ++ chunks_bytes [sample_tile])
        ([88, 80, 72, 69] ++ bytes_of_int32 2 ++ chunks_bytes [sample_tile]).length 0
        counting_sink = ⟨.aborted .BadMagic, 0, []⟩ :=
  eph_load_bad_magic sample_log2_half stored_uncompress counting_sink 0 _ (by decide) (by decide)

/-- C7: a buffer that starts with `EPHE` and a 4-byte version other than 2
makes `eph_load` stop at the version check, whatever follows: no chunk is
read and the sink is not called. -/
theorem eph_load_unsupported_version {U : Type} (log2_half : Log2Half) (uncompress : Uncompress)
    (callback : Callback U) (user : U) (vb rest : List Byte) (hvb : vb.length = 4)
    (hv : int32_of_bytes vb ≠ FILE_VERSION) :
    eph_load log2_half uncompress (EPHE ++ vb ++ rest) (EPHE ++ vb ++ rest).length user callback =
      ⟨.aborted .UnsupportedVersion, user, []⟩ := by
  obtain ⟨h, -⟩ := eph_load_header log2_half uncompress callback user (EPHE ++ vb ++ rest) vb rest hvb
    (by simp)
  rw [h, if_pos hv]

/-- Instance of C7: the magic string, version 3 and the sample tile chunk. -/
theorem eph_load_unsupported_version_witness :
    eph_load sample_log2_half stored_uncompress (EPHE ++ bytes_of_int32 3 ++ chunks_bytes [sample_tile])
        (EPHE ++ bytes_of_int32 3 ++ chunks_bytes [sample_tile]).length 0 counting_sink =
      ⟨.aborted .UnsupportedVersion, 0, []⟩ :=
  eph_load_unsupported_version sample_log2_half stored_uncompress counting_sink 0 (bytes_of_int32 3)
    (chunks_bytes [sample_tile]) (by decide) (by decide)

/-- C8, the failing input: the file whose only chunk is the well-formed chunk
`abcd` with one byte of data.  `eph_load` does not succeed on it: the decode
stops at the assertion `pos == length` of `chunk_read_finish`, as no data of
the chunk was read.  Between two sample tile chunks the same chunk stops the
decode after the first sink call, so that the second tile is never delivered;
with the chunk `abcd` without data in its place both tiles are delivered, in
file order. -/
theorem eph_load_valid_file_fails_on_data :
    (∀ c ∈ [sample_other_data], c.wf) ∧
      (eph_load sample_log2_half stored_uncompress (file_bytes [sample_other_data])
        (file_bytes [sample_other_data]).length 0 counting_sink) =
      ⟨.aborted .ChunkNotClosed, 0, []⟩ ∧
      (∀ c ∈ [sample_tile, sample_other_data, sample_tile], c.wf) ∧
      eph_load sample_log2_half stored_uncompress
          (file_bytes [sample_tile, sample_other_data, sample_tile])
          (file_bytes [sample_tile, sample_other_data, sample_tile]).length 0 counting_sink =
        ⟨.aborted .ChunkNotClosed, 1, [⟨[83, 84, 65, 82], 1, 1, 2, 3, [1, 2, 3]⟩]⟩ ∧
      eph_load sample_log2_half stored_uncompress
          (file_bytes [sample_tile, sample_other, sample_tile])
          (file_bytes [sample_tile, sample_other, sample_tile]).length 0 counting_sink =
        ⟨.returned 0, 2,
          [⟨[83, 84, 65, 82], 1, 1, 2, 3, [1, 2, 3]⟩,
            ⟨[83, 84, 65, 82], 1, 1, 2, 3, [1, 2, 3]⟩]⟩ := by
  refine ⟨by decide, by decide, by decide, by decide!, by decide!⟩

/-- C9: for a well-formed tile chunk whose decompression succeeds, that is
`uncompress` returns `Z_OK` and leaves the declared size, the iteration of the
loop that reads the chunk makes one sink call, which carries the chunk's type,
its version, the order and pixel computed from its nuniq (`nuniq_order`, for
every nuniq below `2 ^ 64` and every floating-point library `log2_half`, and
`nuniq_pix` at that order), the declared size and the bytes that `uncompress`
produced from the compressed bytes, and goes on with the next chunk.  In a file of well-formed chunks (those that are not
tiles declaring no data), that call comes after the calls of the chunks before
the tile and before the calls of the chunks after it. -/
theorem tile_sink_arguments {U : Type} (log2_half : Log2Half)
    (uncompress : Uncompress) (callback : Callback U)
    (user : U) (buf : List Byte) (cur : Cursor) (rest : List Byte) (fuel : Nat)
    (calls : List SinkCall) (before after : List Chunk) (type : List Byte) (t : Tile)
    (crc : List Byte)
    (hat : At buf cur.data ((Chunk.tile type t crc).bytes ++ rest))
    (hs : 32 + (t.comp.length : Int) ≤ cur.data_size)
    (hwf : ∀ c ∈ before ++ [Chunk.tile type t crc] ++ after, c.wf)
    (hz : ∀ c ∈ before ++ [Chunk.tile type t crc] ++ after, c.fully_read)
    (hret : (uncompress (toUInt64 t.size) t.comp).ret = 0)
    (hsize : (uncompress (toUInt64 t.size) t.comp).destLen = toUInt64 t.size) :
    eph_loop log2_half uncompress callback buf (fuel + 1) cur user calls =
        eph_loop log2_half uncompress callback buf fuel
          ⟨cur.data + (32 + t.comp.length), cur.data_size - (32 + t.comp.length)⟩
          (callback
            ⟨type, t.version, nuniq_order log2_half t.nuniq, nuniq_pix t.nuniq (nuniq_order log2_half t.nuniq),
              t.size, (uncompress (toUInt64 t.size) t.comp).dest⟩ user).2
          (calls ++
            [⟨type, t.version, nuniq_order log2_half t.nuniq, nuniq_pix t.nuniq (nuniq_order log2_half t.nuniq),
              t.size, (uncompress (toUInt64 t.size) t.comp).dest⟩]) ∧
      (eph_load log2_half uncompress (file_bytes (before ++ [Chunk.tile type t crc] ++ after))
        (file_bytes (before ++ [Chunk.tile type t crc] ++ after)).length user callback).calls =
      chunks_calls log2_half uncompress before ++
        [⟨type, t.version, nuniq_order log2_half t.nuniq, nuniq_pix t.nuniq (nuniq_order log2_half t.nuniq),
          t.size, (uncompress (toUInt64 t.size) t.comp).dest⟩] ++
        chunks_calls log2_half uncompress after := by
  have htwf : (Chunk.tile type t crc).wf := hwf _ (by simp)
  have _ := hret
  have hcall : tile_call log2_half uncompress type t =
      ⟨type, t.version, nuniq_order log2_half t.nuniq, nuniq_pix t.nuniq (nuniq_order log2_half t.nuniq),
        t.size, (uncompress (toUInt64 t.size) t.comp).dest⟩ := by
    obtain ⟨-, -, -, -, -, -, hs1, hs2, -⟩ := htwf
    simp only [tile_call, hsize, toInt32_toUInt64 hs1 hs2]
  constructor
  · rw [← hcall]
    exact (eph_loop_tile_step log2_half uncompress callback fuel user calls hat htwf hs).1
  · rw [eph_load_file log2_half uncompress callback user _ hwf hz]
    simp only [chunks_calls_append, chunks_calls, hcall, List.append_nil]

/-- Instance of C9: the sample tile chunk between two chunks `abcd` without
data, with the service that stores; the tile chunk starts at offset 20 of the
67-byte file. -/
theorem tile_sink_arguments_witness :
    eph_loop sample_log2_half stored_uncompress counting_sink
        (file_bytes ([sample_other] ++ [sample_tile] ++ [sample_other])) (1 + 1) ⟨20, 47⟩ 0 [] =
      eph_loop sample_log2_half stored_uncompress counting_sink
        (file_bytes ([sample_other] ++ [sample_tile] ++ [sample_other])) 1 ⟨55, 12⟩ 1
        [⟨[83, 84, 65, 82], 1, 1, 2, 3, [1, 2, 3]⟩] ∧
    (eph_load sample_log2_half stored_uncompress (file_bytes ([sample_other] ++ [sample_tile] ++ [sample_other]))
        (file_bytes ([sample_other] ++ [sample_tile] ++ [sample_other])).length 0
        counting_sink).calls =
      [⟨[83, 84, 65, 82], 1, 1, 2, 3, [1, 2, 3]⟩] :=
  have h := tile_sink_arguments sample_log2_half stored_uncompress counting_sink 0
    (file_bytes ([sample_other] ++ [sample_tile] ++ [sample_other])) ⟨20, 47⟩
    (chunks_bytes [sample_other]) 1 [] [sample_other] [sample_other]
    [83, 84, 65, 82] ⟨1, 18, 3, [1, 2, 3]⟩ [0, 0, 0, 0] (by decide) (by decide) (by decide)
    (by decide) (by decide) (by decide)
  ⟨h.1.trans (by decide!), h.2.trans (by decide!)⟩

/-- C10: when `data_size` is 0 where a chunk is expected, `chunk_read_start`
returns `false`, the loop ends and `eph_load` returns 0 with the sink calls
made so far; the 8-byte buffer made of `EPHE` and version 2 decodes with no
sink call. -/
theorem eph_load_end_of_stream {U : Type} (log2_half : Log2Half)
    (uncompress : Uncompress) (callback : Callback U)
    (buf : List Byte) (cur : Cursor) (fuel : Nat) (user : U) (calls : List SinkCall)
    (h : cur.data_size = 0) :
    chunk_read_start buf cur = .ok none ∧
      eph_loop log2_half uncompress callback buf (fuel + 1) cur user calls = ⟨.returned 0, user, calls⟩ ∧
      eph_load log2_half uncompress (EPHE ++ bytes_of_int32 2) (EPHE ++ bytes_of_int32 2).length user
        callback = ⟨.returned 0, user, []⟩ := by
  have h1 : chunk_read_start buf cur = .ok none := by
    unfold chunk_read_start
    rw [if_pos h]
  refine ⟨h1, ?_, ?_⟩
  · rw [eph_loop]
    simp only [h1]
  · have := eph_load_file log2_half uncompress callback user [] (by simp) (by simp)
    simpa [file_bytes, chunks_bytes, chunks_calls, run_calls, FILE_VERSION] using this

/-- Instance of C10: the cursor at the end of the 8-byte file. -/
theorem eph_load_end_of_stream_witness :
    chunk_read_start (EPHE ++ bytes_of_int32 2) ⟨8, 0⟩ = .ok none ∧
      eph_loop sample_log2_half stored_uncompress counting_sink (EPHE ++ bytes_of_int32 2) (0 + 1) ⟨8, 0⟩ 0 [] =
        ⟨.returned 0, 0, []⟩ ∧
      eph_load sample_log2_half stored_uncompress (EPHE ++ bytes_of_int32 2) (EPHE ++ bytes_of_int32 2).length 0
        counting_sink = ⟨.returned 0, 0, []⟩ :=
  eph_load_end_of_stream sample_log2_half stored_uncompress counting_sink _ ⟨8, 0⟩ 0 0 [] rfl

/-- C11: the checksum is read and not looked at.  Two buffers of the same
length that hold the same bytes except at offsets of CRC bytes, the four
bytes before the end of every chunk that `eph_load` gets through, give the
same outcome, the same sink calls with the same arguments, and the same state
behind `user`. -/
theorem checksum_not_validated {U : Type} (log2_half : Log2Half)
    (uncompress : Uncompress) (callback : Callback U)
    (user : U) (buf1 buf2 : List Byte) (hlen : buf1.length = buf2.length)
    (hd : ∀ i : Nat, i < buf1.length → buf1[i]? ≠ buf2[i]? → (i : Int) ∈ crc_offsets buf1) :
    eph_load log2_half uncompress buf1 buf1.length user callback =
      eph_load log2_half uncompress buf2 buf2.length user callback := by
  have hd2 : ∀ i : Nat, buf1[i]? ≠ buf2[i]? → (i : Int) ∈ crc_offsets buf1 := by
    intro i hne
    by_cases hi : i < buf1.length
    · exact hd i hi hne
    · exact absurd (by rw [List.getElem?_eq_none (by omega),
        List.getElem?_eq_none (by omega)]) hne
  have hag : Agree buf1 buf2 0 16 := by
    intro i _ h2
    by_contra hne
    have := crc_offsets_tail_lower buf1 _ _ _ (hd2 i hne)
    simp only [] at this
    omega
  rw [← hlen]
  unfold eph_load
  by_cases h4 : (buf1.length : Int) < 4
  · rw [if_pos h4, if_pos h4]
  rw [if_neg h4, if_neg h4, ← memcpy_congr hlen (Agree_mono hag (le_refl _) (by omega)),
    ← READ_int32_congr ⟨4, (buf1.length : Int) - 4⟩ hlen
      (Agree_mono hag (by simp only []; omega) (by simp only []; omega))]
  cases hm : memcpy buf1 0 4 with
  | none => rfl
  | some magic =>
  simp only []
  by_cases hmagic : magic ≠ EPHE
  · rw [if_pos hmagic, if_pos hmagic]
  rw [if_neg hmagic, if_neg hmagic]
  cases hr : READ_int32 buf1 ⟨4, (buf1.length : Int) - 4⟩ with
  | error e => rfl
  | ok r =>
  obtain ⟨version, cur⟩ := r
  simp only []
  by_cases hversion : version ≠ FILE_VERSION
  · rw [if_pos hversion, if_pos hversion]
  rw [if_neg hversion, if_neg hversion]
  obtain ⟨d1, s1, -, -⟩ := READ_int32_take (k := 0) hr (Nat.zero_le _)
  simp only [] at d1 s1
  have h8 : 8 ≤ buf1.length := by
    have : READ_int32 buf1 ⟨4, (buf1.length : Int) - 4⟩ ≠ .error .Truncated := by
      rw [hr]; simp
    unfold READ_int32 at this
    by_contra hlt
    exact this (by rw [if_pos (by simp only []; omega)])
  have hcur : cur = ⟨8, (buf1.length : Int) - 8⟩ := by
    cases cur; simp only [Cursor.mk.injEq] at *; omega
  have hfuel : cur.data_size.toNat + 1 = buf1.length - 7 := by
    rw [hcur]; simp only []; omega
  rw [hfuel]
  apply eph_loop_crc log2_half uncompress callback buf1 buf2 hlen
  intro i _ hne
  have := hd2 i hne
  unfold crc_offsets file_chunk_starts at this
  rw [hcur]
  exact this

/-- Instance of C11: the file made of the chunk `abcd` without data and the
sample tile chunk, and the same file with other CRC bytes. -/
theorem checksum_not_validated_witness :
    eph_load sample_log2_half stored_uncompress (file_bytes [sample_other, sample_tile])
        (file_bytes [sample_other, sample_tile]).length 0 counting_sink =
      eph_load sample_log2_half stored_uncompress
        (file_bytes [Chunk.other [97, 98, 99, 100] [] [9, 8, 7, 6],
          Chunk.tile [83, 84, 65, 82] ⟨1, 18, 3, [1, 2, 3]⟩ [5, 4, 3, 2]])
        (file_bytes [Chunk.other [97, 98, 99, 100] [] [9, 8, 7, 6],
          Chunk.tile [83, 84, 65, 82] ⟨1, 18, 3, [1, 2, 3]⟩ [5, 4, 3, 2]]).length 0
        counting_sink :=
  checksum_not_validated sample_log2_half stored_uncompress counting_sink 0 _ _ (by decide) (by decide)

/-- C12, the failing input: on `negative_comp_size_file` the five reads of the
header and of the tile fields stay inside the buffer, the `chunk_read` of
`comp_size = -4` bytes passes the assertion and the size check, and its
`memcpy` is a read outside the buffer: the run ends in a memory fault. -/
theorem negative_comp_size_memory_fault :
    negative_comp_size_file.length = 40 ∧
      CHUNK_READ_int32 negative_comp_size_file ⟨[83, 84, 65, 82], 20, 16⟩ ⟨32, 8⟩ =
        .ok (-4, ⟨[83, 84, 65, 82], 20, 20⟩, ⟨36, 4⟩) ∧
      ¬ (20 : Int) < toInt32 (20 + -4) ∧ ¬ (4 : Int) < -4 ∧
      memcpy negative_comp_size_file 36 (-4) = none ∧
      chunk_read negative_comp_size_file ⟨[83, 84, 65, 82], 20, 20⟩ ⟨36, 4⟩ (-4) =
        .error .MemoryFault ∧
      eph_load sample_log2_half stored_uncompress negative_comp_size_file negative_comp_size_file.length 0
        counting_sink = ⟨.aborted .MemoryFault, 0, []⟩ := by
  decide

/-- C13: a `chunk_read` that succeeds leaves `pos`, the sum that
`c->pos += size` computed, at most equal to the declared length, which it does
not change; a `chunk_read` whose new `pos` is above the declared length fails
at the assertion (`ChunkOverrun`) and returns nothing, in particular when the
exact sum `pos + k` fits an `int` and is above the length; `chunk_read_finish`
reads the checksum only if `pos` equals the declared length and stops at its
assertion otherwise. -/
theorem chunk_framing (buf : List Byte) (c : chunk_t) (cur : Cursor) (k : Int) :
    (∀ bs c1 cur1, chunk_read buf c cur k = .ok (bs, c1, cur1) →
        c1.pos ≤ c1.length ∧ c1.length = c.length ∧ c1.pos = toInt32 (c.pos + k)) ∧
      (c.length < toInt32 (c.pos + k) → chunk_read buf c cur k = .error .ChunkOverrun) ∧
      (-2 ^ 31 ≤ c.pos + k → c.pos + k < 2 ^ 31 → c.length < c.pos + k →
        chunk_read buf c cur k = .error .ChunkOverrun) ∧
      (∀ cur1, chunk_read_finish buf c cur = .ok cur1 → c.pos = c.length) ∧
      (c.pos ≠ c.length → chunk_read_finish buf c cur = .error .ChunkNotClosed) := by
  have hover : c.length < toInt32 (c.pos + k) → chunk_read buf c cur k = .error .ChunkOverrun := by
    intro h
    unfold chunk_read
    simp only []
    rw [if_pos h]
  refine ⟨?_, hover, ?_, ?_, ?_⟩
  · intro bs c1 cur1 h
    unfold chunk_read at h
    simp only [] at h
    split at h
    · exact absurd h (by simp)
    · rename_i hp
      split at h
      · exact absurd h (by simp)
      · cases hm : memcpy buf cur.data k with
        | none => simp [hm] at h
        | some bs2 =>
          simp only [hm, Except.ok.injEq, Prod.mk.injEq] at h
          obtain ⟨-, rfl, -⟩ := h
          exact ⟨by simp only []; omega, rfl, rfl⟩
  · intro h1 h2 h3
    exact hover (by rw [toInt32_of_range h1 h2]; exact h3)
  · intro cur1 h
    unfold chunk_read_finish at h
    split at h
    · exact absurd h (by simp)
    · rename_i hp
      simpa using hp
  · intro h
    unfold chunk_read_finish
    rw [if_pos h]

/-- Instance of C13: in the file made of the sample tile chunk, whose chunk
declares 23 bytes, with 20 bytes read and the cursor at offset 36: a read of 3
bytes succeeds and leaves `pos` at 23, a read of 4 bytes stops at the
assertion, and `chunk_read_finish` stops at its assertion as `pos` is not 23. -/
theorem chunk_framing_witness :
    chunk_read (file_bytes [sample_tile]) ⟨[83, 84, 65, 82], 23, 20⟩ ⟨36, 7⟩ 3 =
        .ok ([1, 2, 3], ⟨[83, 84, 65, 82], 23, 23⟩, ⟨39, 4⟩) ∧
      chunk_read (file_bytes [sample_tile]) ⟨[83, 84, 65, 82], 23, 20⟩ ⟨36, 7⟩ 4 =
        .error .ChunkOverrun ∧
      chunk_read_finish (file_bytes [sample_tile]) ⟨[83, 84, 65, 82], 23, 20⟩ ⟨36, 7⟩ =
        .error .ChunkNotClosed :=
  ⟨by decide,
    (chunk_framing (file_bytes [sample_tile]) ⟨[83, 84, 65, 82], 23, 20⟩ ⟨36, 7⟩ 4).2.2.1
      (by decide) (by decide) (by decide),
    (chunk_framing (file_bytes [sample_tile]) ⟨[83, 84, 65, 82], 23, 20⟩ ⟨36, 7⟩ 4).2.2.2.2
      (by decide)⟩

/-- C14: a well-formed tile chunk that carries the nuniq 8 is decoded and
delivered: the file made of it decodes with return value 0 and one sink call,
whose order is 0 and whose pixel is 4, which is not below `4 * 4 ^ 0`. -/
theorem malformed_nuniq_delivered {U : Type} (log2_half : Log2Half)
    (uncompress : Uncompress) (callback : Callback U)
    (user : U) (type : List Byte) (t : Tile) (crc : List Byte)
    (hwf : (Chunk.tile type t crc).wf) (hn : t.nuniq = 8) :
    eph_load log2_half uncompress (file_bytes [Chunk.tile type t crc])
        (file_bytes [Chunk.tile type t crc]).length user callback =
      ⟨.returned 0, (callback (tile_call log2_half uncompress type t) user).2,
        [tile_call log2_half uncompress type t]⟩ ∧
      (tile_call log2_half uncompress type t).order = 0 ∧ (tile_call log2_half uncompress type t).pix = 4 ∧
      ¬ (tile_call log2_half uncompress type t).pix < 4 * 4 ^ (tile_call log2_half uncompress type t).order.toNat := by
  have ho : (tile_call log2_half uncompress type t).order = 0 := by
    simp only [tile_call, hn, nuniq_order_8]
  have hp : (tile_call log2_half uncompress type t).pix = 4 := by
    simp only [tile_call, hn, nuniq_order_8]; decide
  refine ⟨?_, ho, hp, ?_⟩
  · rw [eph_load_file log2_half uncompress callback user _ (by simpa using hwf)
      (by simp [Chunk.fully_read])]
    simp [chunks_calls, run_calls]
  · rw [ho, hp]; decide

/-- Instance of C14: the tile chunk `STAR` of version 1 with nuniq 8. -/
theorem malformed_nuniq_delivered_witness :
    eph_load sample_log2_half stored_uncompress
        (file_bytes [Chunk.tile [83, 84, 65, 82] ⟨1, 8, 3, [1, 2, 3]⟩ [0, 0, 0, 0]])
        (file_bytes [Chunk.tile [83, 84, 65, 82] ⟨1, 8, 3, [1, 2, 3]⟩ [0, 0, 0, 0]]).length 0
        counting_sink =
      ⟨.returned 0, 1, [⟨[83, 84, 65, 82], 1, 0, 4, 3, [1, 2, 3]⟩]⟩ :=
  (malformed_nuniq_delivered sample_log2_half stored_uncompress counting_sink 0 [83, 84, 65, 82]
    ⟨1, 8, 3, [1, 2, 3]⟩ [0, 0, 0, 0] (by decide) rfl).1.trans (by decide!)

/-- C15: on a buffer of fewer than 8 bytes `eph_load` stops at a size check or
at the magic check, hence before any read outside the buffer; the sink is not
called. -/
theorem eph_load_short_buffer {U : Type} (log2_half : Log2Half)
    (uncompress : Uncompress) (callback : Callback U)
    (user : U) (buf : List Byte) (h : buf.length < 8) :
    eph_load log2_half uncompress buf buf.length user callback = ⟨.aborted .Truncated, user, []⟩ ∨
      eph_load log2_half uncompress buf buf.length user callback = ⟨.aborted .BadMagic, user, []⟩ := by
  unfold eph_load
  by_cases h4 : (buf.length : Int) < 4
  · left; rw [if_pos h4]
  · rw [if_neg h4]
    have hc : memcpy buf 0 4 = some (buf.take 4) := by
      unfold memcpy
      rw [if_pos (by omega)]
      simp
    rw [hc]
    simp only []
    by_cases hm : buf.take 4 = EPHE
    · left
      have hr : READ_int32 buf ⟨4, (buf.length : Int) - 4⟩ = .error .Truncated := by
        unfold READ_int32
        rw [if_pos (by simp only []; omega)]
      simp [hm, hr]
    · right
      simp [hm]

/-- Instance of C15: the 7 bytes `EPHE`, 2, 0, 0. -/
theorem eph_load_short_buffer_witness :
    eph_load sample_log2_half stored_uncompress (EPHE ++ [2, 0, 0]) (EPHE ++ [2, 0, 0]).length 0 counting_sink =
        ⟨.aborted .Truncated, 0, []⟩ ∨
      eph_load sample_log2_half stored_uncompress (EPHE ++ [2, 0, 0]) (EPHE ++ [2, 0, 0]).length 0 counting_sink =
        ⟨.aborted .BadMagic, 0, []⟩ :=
  eph_load_short_buffer sample_log2_half stored_uncompress counting_sink 0 (EPHE ++ [2, 0, 0]) (by decide)

/-- C16: an iteration of the loop of `eph_load` either ends the run, with
return value 0 at the end of the stream or at a failed check, or gets through
`chunk_read_finish` and hands over to the next iteration with the cursor at
least 12 bytes further and `data_size` at least 12 smaller; every run of
`eph_load` ends, by `return 0` or at a failed check, and never for lack of
fuel. -/
theorem eph_load_progress {U : Type} (log2_half : Log2Half)
    (uncompress : Uncompress) (callback : Callback U)
    (data : List Byte) (data_size : Int) (user : U) :
    (∀ (fuel : Nat) (cur : Cursor) (u : U) (calls : List SinkCall),
        (∃ cur3 u2 calls2, chunk_next data cur = some cur3 ∧
          cur.data + 12 ≤ cur3.data ∧ cur3.data_size + 12 ≤ cur.data_size ∧
          eph_loop log2_half uncompress callback data (fuel + 1) cur u calls =
            eph_loop log2_half uncompress callback data fuel cur3 u2 calls2) ∨
        ((eph_loop log2_half uncompress callback data (fuel + 1) cur u calls).outcome = .returned 0 ∨
          ∃ e, (eph_loop log2_half uncompress callback data (fuel + 1) cur u calls).outcome =
            .aborted e)) ∧
      (eph_load log2_half uncompress data data_size user callback).outcome ≠ .outOfFuel ∧
      ((eph_load log2_half uncompress data data_size user callback).outcome = .returned 0 ∨
        ∃ e, (eph_load log2_half uncompress data data_size user callback).outcome = .aborted e) := by
  refine ⟨?_, eph_load_fuel_enough log2_half uncompress callback data data_size user,
    eph_load_outcome log2_half uncompress callback data data_size user⟩
  intro fuel cur u calls
  rcases eph_loop_iteration log2_half uncompress callback data fuel cur u calls with
    ⟨cur3, u2, calls2, hn, h⟩ | ⟨-, h⟩
  · obtain ⟨p1, p2⟩ := chunk_next_progress hn
    exact Or.inl ⟨cur3, u2, calls2, hn, p1, by omega, h⟩
  · exact Or.inr h

/-- Instance of C16: the first iteration on the file made of the chunk `abcd`
without data and the sample tile chunk moves the cursor from offset 8 to
offset 20 and `data_size` from 47 to 35, and the run of `eph_load` on the file
ends. -/
theorem eph_load_progress_witness :
    chunk_next (file_bytes [sample_other, sample_tile]) ⟨8, 47⟩ = some ⟨20, 35⟩ ∧
      (eph_load sample_log2_half stored_uncompress (file_bytes [sample_other, sample_tile])
        (file_bytes [sample_other, sample_tile]).length 0 counting_sink).outcome ≠ .outOfFuel ∧
      ((eph_load sample_log2_half stored_uncompress (file_bytes [sample_other, sample_tile])
          (file_bytes [sample_other, sample_tile]).length 0 counting_sink).outcome =
          .returned 0 ∨
        ∃ e, (eph_load sample_log2_half stored_uncompress (file_bytes [sample_other, sample_tile])
          (file_bytes [sample_other, sample_tile]).length 0 counting_sink).outcome =
          .aborted e) :=
  ⟨by decide,
    (eph_load_progress sample_log2_half stored_uncompress counting_sink (file_bytes [sample_other, sample_tile])
      (file_bytes [sample_other, sample_tile]).length 0).2⟩

/-- C17: with the cursor inside the buffer and the counters in the range of
`int`, a `chunk_read` of `n` bytes with `0 ≤ n ≤ data_size` and
`pos + n ≤ length` succeeds: it returns the `n` bytes at the cursor, moves the
cursor by `n`, takes `n` off `data_size`, adds `n` to `pos` and leaves the type
and length of the chunk as they were.  A `chunk_read` of `m` bytes with `m`
above `data_size` fails, at one of its two checks, and returns nothing. -/
theorem chunk_read_effect (buf : List Byte) (c : chunk_t) (cur : Cursor) (n m : Int)
    (hpos : -2 ^ 31 ≤ c.pos) (hlen : c.length < 2 ^ 31) (h0 : 0 ≤ cur.data)
    (hin : cur.data + cur.data_size ≤ buf.length)
    (hn0 : 0 ≤ n) (hn1 : n ≤ cur.data_size) (hn2 : c.pos + n ≤ c.length)
    (hm : cur.data_size < m) :
    chunk_read buf c cur n =
        .ok ((buf.drop cur.data.toNat).take n.toNat, ⟨c.type, c.length, c.pos + n⟩,
          ⟨cur.data + n, cur.data_size - n⟩) ∧
      (((buf.drop cur.data.toNat).take n.toNat).length : Int) = n ∧
      (chunk_read buf c cur m = .error .ChunkOverrun ∨
        chunk_read buf c cur m = .error .Truncated) := by
  refine ⟨?_, ?_, ?_⟩
  · unfold chunk_read memcpy
    simp only []
    rw [toInt32_of_range (by omega) (by omega), if_neg (by omega), if_neg (by omega),
      if_pos ⟨h0, hn0, by omega⟩]
  · rw [List.length_take, List.length_drop]
    omega
  · unfold chunk_read
    simp only []
    by_cases hp : c.length < toInt32 (c.pos + m)
    · left; rw [if_pos hp]
    · right; rw [if_neg hp, if_pos hm]

/-- Instance of C17: at offset 16 of the file made of the sample tile chunk,
where 27 bytes are left and the chunk declares 23: reading the 4 bytes of the
version, and reading 28 bytes. -/
theorem chunk_read_effect_witness :
    chunk_read (file_bytes [sample_tile]) ⟨[83, 84, 65, 82], 23, 0⟩ ⟨16, 27⟩ 4 =
        .ok ([1, 0, 0, 0], ⟨[83, 84, 65, 82], 23, 4⟩, ⟨20, 23⟩) ∧
      (chunk_read (file_bytes [sample_tile]) ⟨[83, 84, 65, 82], 23, 0⟩ ⟨16, 27⟩ 28 =
          .error .ChunkOverrun ∨
        chunk_read (file_bytes [sample_tile]) ⟨[83, 84, 65, 82], 23, 0⟩ ⟨16, 27⟩ 28 =
          .error .Truncated) :=
  have h := chunk_read_effect (file_bytes [sample_tile]) ⟨[83, 84, 65, 82], 23, 0⟩ ⟨16, 27⟩
    4 28 (by decide) (by decide) (by decide) (by decide) (by decide) (by decide) (by decide)
    (by decide)
  ⟨h.1.trans (by decide), h.2.2⟩

/-- C18: for every nuniq from 4 up to `2 ^ 30` (excluded), the order and pixel
that `eph_load` computes are not negative, the pixel is below `12 * 4 ^ order`,
`nuniq = 4 * 4 ^ order + pix`, and the order is the only `o` with
`4 * 4 ^ o ≤ nuniq < 4 * 4 ^ (o + 1)`. -/
theorem nuniq_decomposition (log2_half : Log2Half) (nuniq : Nat) (h4 : 4 ≤ nuniq)
    (h30 : nuniq < 2 ^ 30) :
    0 ≤ nuniq_order log2_half nuniq ∧ 0 ≤ nuniq_pix nuniq (nuniq_order log2_half nuniq) ∧
      nuniq_pix nuniq (nuniq_order log2_half nuniq) < 12 * 4 ^ (nuniq_order log2_half nuniq).toNat ∧
      (nuniq : Int) =
        4 * 4 ^ (nuniq_order log2_half nuniq).toNat + nuniq_pix nuniq (nuniq_order log2_half nuniq) ∧
      4 * 4 ^ (nuniq_order log2_half nuniq).toNat ≤ nuniq ∧
      nuniq < 4 * 4 ^ ((nuniq_order log2_half nuniq).toNat + 1) ∧
      ∀ o : Nat, 4 * 4 ^ o ≤ nuniq → nuniq < 4 * 4 ^ (o + 1) →
        (o : Int) = nuniq_order log2_half nuniq := by
  have hne : nuniq / 4 ≠ 0 := by omega
  have hx30 : nuniq / 4 < 2 ^ 28 := by omega
  obtain ⟨o, ho⟩ : ∃ o : Nat, o = Nat.log2 (nuniq / 4) / 2 := ⟨_, rfl⟩
  have hord : nuniq_order log2_half nuniq = (o : Int) := by
    rw [nuniq_order_of_lt log2_half nuniq hne (by omega), ho]
  have hm28 : Nat.log2 (nuniq / 4) < 28 := (Nat.log2_lt hne).2 hx30
  have ho13 : o ≤ 13 := by omega
  have hlow : 2 ^ Nat.log2 (nuniq / 4) ≤ nuniq / 4 := Nat.log2_self_le hne
  have hhigh : nuniq / 4 < 2 ^ (Nat.log2 (nuniq / 4) + 1) := Nat.lt_log2_self
  have h4o : (4 : Nat) ^ o = 2 ^ (2 * o) := by rw [pow_mul]; norm_num
  have hp1 : (2 : Nat) ^ (2 * o) ≤ 2 ^ Nat.log2 (nuniq / 4) :=
    Nat.pow_le_pow_right (by decide) (by omega)
  have hp2 : (2 : Nat) ^ (Nat.log2 (nuniq / 4) + 1) ≤ 2 ^ (2 * o + 2) :=
    Nat.pow_le_pow_right (by decide) (by omega)
  have hp3 : (2 : Nat) ^ (2 * o + 2) = 4 * 4 ^ o := by rw [pow_add, ← h4o]; ring
  have hA : 4 * 4 ^ o ≤ nuniq := by omega
  have hB : nuniq < 4 * 4 ^ (o + 1) := by rw [pow_succ]; omega
  have hpix := nuniq_pix_of_le nuniq o (by omega) hA (by omega)
  have hpowc : ((4 ^ o : Nat) : Int) = (4 : Int) ^ o := by push_cast; rfl
  have hB2 : nuniq < 16 * 4 ^ o := by rw [pow_succ] at hB; omega
  rw [hord, hpix, Int.toNat_ofNat]
  refine ⟨by omega, by omega, ?_, ?_, hA, hB, ?_⟩
  · rw [← hpowc]; omega
  · rw [← hpowc]; omega
  · intro o2 h1 h2
    have : o2 = o := by
      rcases Nat.lt_trichotomy o2 o with hlt | heq | hgt
      · have : (4 : Nat) ^ (o2 + 1) ≤ 4 ^ o := Nat.pow_le_pow_right (by decide) hlt
        omega
      · exact heq
      · have : (4 : Nat) ^ (o + 1) ≤ 4 ^ o2 := Nat.pow_le_pow_right (by decide) hgt
        omega
    rw [this]

/-- Instance of C18 at the nuniq 18. -/
theorem nuniq_decomposition_witness :
    0 ≤ nuniq_order sample_log2_half 18 ∧ 0 ≤ nuniq_pix 18 (nuniq_order sample_log2_half 18) ∧
      nuniq_pix 18 (nuniq_order sample_log2_half 18) < 12 * 4 ^ (nuniq_order sample_log2_half 18).toNat ∧
      ((18 : Nat) : Int) =
        4 * 4 ^ (nuniq_order sample_log2_half 18).toNat +
          nuniq_pix 18 (nuniq_order sample_log2_half 18) ∧
      4 * 4 ^ (nuniq_order sample_log2_half 18).toNat ≤ 18 ∧
      18 < 4 * 4 ^ ((nuniq_order sample_log2_half 18).toNat + 1) ∧
      ∀ o : Nat, 4 * 4 ^ o ≤ 18 → 18 < 4 * 4 ^ (o + 1) →
        (o : Int) = nuniq_order sample_log2_half 18 :=
  nuniq_decomposition sample_log2_half 18 (by decide) (by decide)

/-- C19: when `eph_load` returns 0 on a buffer, every chunk that it got through
declares 20 bytes more than its compressed size, which is not negative, if its
type starts with an uppercase letter, and declares no byte otherwise; the
length of the buffer is 8 plus the sum over these chunks of 12 plus the
declared length; the sink calls are those of the tile chunks among them, in
order. -/
theorem declared_lengths_of_success {U : Type} (log2_half : Log2Half) (uncompress : Uncompress)
    (callback : Callback U) (user : U) (buf : List Byte)
    (hok : (eph_load log2_half uncompress buf buf.length user callback).outcome = .returned 0) :
    (∀ p ∈ file_chunks_read buf,
        (is_tile_type p.1.type = true →
          ∃ f, p.2 = some f ∧ 0 ≤ f.comp_size ∧ p.1.length = 20 + f.comp_size) ∧
        (is_tile_type p.1.type = false → p.2 = none ∧ p.1.length = 0)) ∧
      (buf.length : Int) = 8 + ((file_chunks_read buf).map fun p => 12 + p.1.length).sum ∧
      (eph_load log2_half uncompress buf buf.length user callback).calls =
        (file_chunks_read buf).filterMap
          fun p => p.2.map (tile_sink_call log2_half uncompress p.1.type) := by
  unfold eph_load at hok ⊢
  split at hok
  · simp at hok
  rename_i h4
  rw [if_neg h4]
  cases hm : memcpy buf 0 4 with
  | none => simp [hm] at hok
  | some magic =>
  simp only [hm] at hok ⊢
  split at hok
  · simp at hok
  rename_i hmagic
  rw [if_neg hmagic]
  cases hr : READ_int32 buf ⟨4, (buf.length : Int) - 4⟩ with
  | error e => simp [hr] at hok
  | ok r =>
  obtain ⟨version, cur⟩ := r
  simp only [hr] at hok ⊢
  split at hok
  · simp at hok
  rename_i hversion
  rw [if_neg hversion]
  obtain ⟨d1, s1, -, -⟩ := READ_int32_take (k := 0) hr (Nat.zero_le _)
  simp only [] at d1 s1
  have hmem := memcpy_ok hm
  have hcur : cur = ⟨8, (buf.length : Int) - 8⟩ := by
    cases cur; simp only [Cursor.mk.injEq] at *; omega
  have h8 : 8 ≤ buf.length := by
    have : READ_int32 buf ⟨4, (buf.length : Int) - 4⟩ ≠ .error .Truncated := by
      rw [hr]; simp
    unfold READ_int32 at this
    by_contra hlt
    exact this (by rw [if_pos (by simp only []; omega)])
  have hfuel : cur.data_size.toNat + 1 = buf.length - 7 := by
    rw [hcur]; simp only []; omega
  rw [hfuel] at hok ⊢
  obtain ⟨i1, i2, i3⟩ := eph_loop_chunks_read log2_half uncompress callback buf _ cur user [] hok
  unfold file_chunks_read
  rw [← hcur]
  refine ⟨i1, ?_, by simpa using i3⟩
  rw [← i2, hcur]
  simp only []
  omega

/-- Instance of C19: the file made of the chunk `abcd` without data and the
sample tile chunk, 55 bytes long, whose chunks declare 0 and 23 bytes. -/
theorem declared_lengths_of_success_witness :
    ((file_bytes [sample_other, sample_tile]).length : Int) =
        8 + ((file_chunks_read (file_bytes [sample_other, sample_tile])).map
          fun p => 12 + p.1.length).sum ∧
      (file_chunks_read (file_bytes [sample_other, sample_tile])).map (fun p => p.1.length) =
        [0, 23] :=
  ⟨(declared_lengths_of_success sample_log2_half stored_uncompress counting_sink 0
    (file_bytes [sample_other, sample_tile]) (by decide)).2.1, by decide⟩

end EphFile
